import Mathlib

/-!
Verification of the A* path planner (`pathPlanner.py`).

The source is a single Python function `do_a_star(grid, start, end,
display_message)` together with a Euclidean `heuristic`.  We embed it
shallowly:

* cells are pairs of integers (Python tuples of ints);
* the grid is a list of rows of naturals, `1` marking a traversable cell;
* the open set is a list of tuples `(f, g, node, parent)` exactly as in the
  source; the float `f = g0 + sqrt d0` (always of this shape in every tuple
  the source ever builds) is represented exactly by the pair `(g0, d0)` of
  naturals, and comparisons on `f` are performed by an exact integer
  decision procedure `fLe`, proved below to agree with the real-number
  order;
* Python's `dict` objects `g_scores` and `parents` become association
  lists with the same lookup/assignment semantics;
* the two sources of runtime errors reachable in the source - `grid[0]`
  on an empty grid and `random.randint(0, ROW-1)` when `ROW = 0` - and the
  out-of-range row accesses possible on jagged grids are modelled with an
  error outcome; both unbounded loops (the main search loop and the
  predecessor walk) receive explicit fuel, and exhaustion of the fuel is a
  distinguished `timeout` outcome (the termination theorems show it never
  occurs);
* calls to `display_message` and the bare `print` of the reconstructed
  path are recorded in an event trace;
* the random points generated at the beginning of the call are taken from
  an explicit `rand` stream parameter, so that independence of the result
  from the randomness is a provable statement.
-/

/-- Cells are integer coordinate pairs, as in the Python source where
`start` and `end` are tuples of ints. -/
abbrev Cell : Type := ℤ × ℤ

/-- The occupancy grid: a list of rows of naturals, `1` = traversable. -/
abbrev Grid : Type := List (List ℕ)

/-- The four movement offsets in the exact order fixed at line 36 of the
source: right, down, left, up. -/
def movements : List (ℤ × ℤ) := [(0, 1), (1, 0), (0, -1), (-1, 0)]

/-- Componentwise addition of a cell and an offset, i.e.
`(current[0] + dx, current[1] + dy)`. -/
def cadd (c d : ℤ × ℤ) : ℤ × ℤ := (c.1 + d.1, c.2 + d.2)

/-- Squared Euclidean distance between two cells.  The source's
`heuristic` is the (floating point) square root of this natural number. -/
def d2 (a b : Cell) : ℕ := ((a.1 - b.1) ^ 2 + (a.2 - b.2) ^ 2).toNat

/-- One element of the Python `open_set` list: the tuple
`(f_score, g_score, node, parent)`.  Every tuple the source ever builds
has `f_score = fg + sqrt fd` for naturals `fg`, `fd` (the seed tuple has
`f = 0 = 0 + sqrt 0`, an inserted tuple has
`f = tentative_g + heuristic(neighbor, end)`), so the float `f_score` is
represented exactly by the pair `(fg, fd)`. -/
structure Entry where
  fg : ℕ
  fd : ℕ
  g : ℕ
  node : Cell
  parent : Option Cell
deriving DecidableEq, Repr

/-- Exact decision of `fg1 + sqrt fd1 ≤ fg2 + sqrt fd2` by integer
arithmetic; proved below (`fLe_iff`) to coincide with the real order, which
is how the float comparisons of the source are modelled. -/
def fLe (g1 d1 g2 d2 : ℕ) : Bool :=
  let a : ℤ := (g2 : ℤ) - (g1 : ℤ)
  if 0 ≤ a then
    let t : ℤ := (d1 : ℤ) - a ^ 2 - (d2 : ℤ)
    decide (t ≤ 0) || decide (t ^ 2 ≤ 4 * a ^ 2 * (d2 : ℤ))
  else
    let s : ℤ := (d2 : ℤ) - (d1 : ℤ) - a ^ 2
    decide (0 ≤ s) && decide (4 * a ^ 2 * (d1 : ℤ) ≤ s ^ 2)

/-- Strict comparison of the `f` components of two open-set tuples. -/
def entryLt (x y : Entry) : Bool := ! fLe y.fg y.fd x.fg x.fd

/-- Python's `min(open_set, key=lambda x: x[0])`: scan from the left and
replace the current best only on a strictly smaller key, so the result is
the earliest tuple attaining the minimal `f`. -/
def minF (e : Entry) (l : List Entry) : Entry :=
  l.foldl (fun best x => if entryLt x best then x else best) e

/-- Python's `list.remove`: delete the first occurrence of a value. -/
def erase1 : List Entry → Entry → List Entry
  | [], _ => []
  | x :: t, m => if x = m then t else x :: erase1 t m

/-- Python `dict` lookup on an association list. -/
def lookupA {β : Type} : List (Cell × β) → Cell → Option β
  | [], _ => none
  | (k, v) :: t, c => if k = c then some v else lookupA t c

/-- Python `dict` assignment: overwrite the binding in place if the key is
present, otherwise append it. -/
def insertA {β : Type} : List (Cell × β) → Cell → β → List (Cell × β)
  | [], c, v => [(c, v)]
  | (k, w) :: t, c, v => if k = c then (c, v) :: t else (k, w) :: insertA t c v

/-- The search context: the grid and the two endpoint cells. -/
structure Ctx where
  grid : Grid
  start : Cell
  endc : Cell

/-- `COL = len(grid)`: the number of rows. -/
def Ctx.COL (ctx : Ctx) : ℕ := ctx.grid.length

/-- `ROW = len(grid[0])`: the length of the first row. -/
def Ctx.ROW (ctx : Ctx) : ℕ := (ctx.grid.headD []).length

/-- The bounds guard
`0 <= neighbor[0] < COL and 0 <= neighbor[1] < ROW` of line 99. -/
def inB (ctx : Ctx) (c : Cell) : Bool :=
  decide (0 ≤ c.1) && decide (c.1 < (ctx.COL : ℤ)) &&
    decide (0 ≤ c.2) && decide (c.2 < (ctx.ROW : ℤ))

/-- The grid access `grid[c.1][c.2]`, as an optional value: `none` models
an out-of-range row access (only possible on a jagged grid, since the
access is evaluated behind the bounds guard). -/
def cellAt (ctx : Ctx) (c : Cell) : Option ℕ :=
  (ctx.grid.getD c.1.toNat []).get? c.2.toNat

/-- The two kinds of runtime error the modelled source can raise. -/
inductive PyErr where
  | indexError
  | valueError
deriving DecidableEq, Repr

/-- The mutable state of the search: the open set and the two dicts. -/
structure AState where
  open_set : List Entry
  g_scores : List (Cell × ℕ)
  parents : List (Cell × Cell)
deriving DecidableEq, Repr

/-- The open-set tuple appended when the neighbor `nb` is relaxed:
`(f_score, tentative_g, neighbor, current)` with
`f_score = tentative_g + heuristic(neighbor, end)` and
`tentative_g = curG + 1`. -/
def relaxEntry (ctx : Ctx) (cur : Cell) (curG : ℕ) (nb : Cell) : Entry :=
  ⟨curG + 1, d2 nb ctx.endc, curG + 1, nb, some cur⟩

/-- The state after a successful relaxation of neighbor `nb` (lines
105-108): record the new best cost, set the parent, append the open-set
tuple. -/
def relaxed (ctx : Ctx) (cur : Cell) (curG : ℕ) (st : AState) (nb : Cell) : AState :=
  { open_set := st.open_set ++ [relaxEntry ctx cur curG nb],
    g_scores := insertA st.g_scores nb (curG + 1),
    parents := insertA st.parents nb cur }

/-- The body of the `for dx, dy in movements` loop (lines 95-108): compute
the neighbor, and behind the bounds-and-traversability guard relax it when
it is new or strictly cheaper (`neighbor not in g_scores or
tentative_g < g_scores[neighbor]`), otherwise leave the state unchanged. -/
def relaxOne (ctx : Ctx) (cur : Cell) (curG : ℕ) (st : AState) (d : ℤ × ℤ) :
    Except PyErr AState :=
  let nb := cadd cur d
  if inB ctx nb then
    match cellAt ctx nb with
    | none => .error .indexError
    | some v =>
      if v = 1 then
        match lookupA st.g_scores nb with
        | none => .ok (relaxed ctx cur curG st nb)
        | some old =>
          if curG + 1 < old then .ok (relaxed ctx cur curG st nb) else .ok st
      else .ok st
  else .ok st

/-- The whole neighbor expansion of one popped node, folding `relaxOne`
over the four movement offsets in order. -/
def relaxAll (ctx : Ctx) (cur : Cell) (curG : ℕ) (st : AState) :
    Except PyErr AState :=
  movements.foldlM (relaxOne ctx cur curG) st

/-- The predecessor walk of lines 77-79: while the current cell has a
recorded parent, emit it and move to the parent.  The fuel bounds the
number of iterations; `none` models non-termination of the Python loop. -/
def walkBack (parents : List (Cell × Cell)) : ℕ → Cell → Option (List Cell)
  | 0, _ => none
  | fuel + 1, cur =>
    match lookupA parents cur with
    | some p => (walkBack parents fuel p).map (fun w => cur :: w)
    | none => some []

/-- Messages passed to `display_message`. -/
inductive Msg where
  | createdRandomPoints
  | startLocation (c : Cell)
  | pathFound
  | noPathFound
deriving DecidableEq, Repr

/-- Observable effects of one call: a reporter invocation or the bare
`print` of the reconstructed path at line 84. -/
inductive Event where
  | report (m : Msg)
  | printed (p : List Cell)
deriving DecidableEq, Repr

/-- Result of one iteration of the main loop. -/
inductive StepRes where
  | exhausted
  | found (p : List Cell)
  | stuck
  | failed (e : PyErr)
  | stepped (st : AState)
deriving DecidableEq, Repr

/-- One iteration of the `while open_set` loop: pop the earliest minimal-f
tuple; if its node is the goal, reconstruct the path by walking `parents`
back and appending `start`; otherwise expand its four neighbors. -/
def stepA (ctx : Ctx) (st : AState) : StepRes :=
  match st.open_set with
  | [] => .exhausted
  | e0 :: rest =>
    if (minF e0 rest).node = ctx.endc then
      match walkBack st.parents (st.parents.length + 1) (minF e0 rest).node with
      | none => .stuck
      | some w => .found ((w ++ [ctx.start]).reverse)
    else
      match relaxAll ctx (minF e0 rest).node (minF e0 rest).g
          { st with open_set := erase1 st.open_set (minF e0 rest) } with
      | .error e => .failed e
      | .ok st2 => .stepped st2

/-- Overall outcome of a call: normal return with the returned list and the
event trace, an uncaught error, or fuel exhaustion (i.e. divergence). -/
inductive Outcome where
  | ok (path : List Cell) (events : List Event)
  | err (e : PyErr)
  | timeout
deriving DecidableEq, Repr

/-- The main loop, with fuel.  On exhaustion of the open set the failure
message is reported and `[]` returned (lines 110-112); on success the
reconstructed path is printed, the success message reported and the path
returned (lines 84-86). -/
def loopA (ctx : Ctx) : ℕ → AState → Outcome
  | 0, _ => .timeout
  | fuel + 1, st =>
    match stepA ctx st with
    | .exhausted => .ok [] [.report .noPathFound]
    | .found p => .ok p [.printed p, .report .pathFound]
    | .stuck => .timeout
    | .failed e => .err e
    | .stepped st2 => loopA ctx fuel st2

/-- The seed tuple `(0, 0, start, None)` of line 44. -/
def seedEntry (start : Cell) : Entry := ⟨0, 0, 0, start, none⟩

/-- The state at entry of the main loop:
`open_set = [(0, 0, start, None)]`, `g_scores = {start: 0}`,
`parents = {}`. -/
def initState (start : Cell) : AState :=
  { open_set := [seedEntry start], g_scores := [(start, 0)], parents := [] }

/-- Fuel given to the main loop; proved sufficient by the termination
theorems (the loop provably performs strictly fewer iterations). -/
def loopFuel (ctx : Ctx) : ℕ :=
  5 * (ctx.COL * ctx.ROW + 3) * (ctx.COL * ctx.ROW) + 2

/-- Shallow embedding of `do_a_star(grid, start, end, display_message)`.
`rand` supplies the stream of random points drawn at lines 54-56 (they are
bound and then never consumed, exactly as in the source).  An empty grid
makes `len(grid[0])` raise `IndexError`; a zero-width grid makes
`random.randint(0, ROW-1)` raise `ValueError`.  Otherwise the two
start-of-search messages are reported and the main loop runs. -/
def do_a_star (grid : Grid) (start endc : Cell) (rand : ℕ → ℤ × ℤ) : Outcome :=
  match grid with
  | [] => .err .indexError
  | _ :: _ =>
    let ctx : Ctx := ⟨grid, start, endc⟩
    if ctx.ROW = 0 then .err .valueError
    else
      let _randomPoints := (List.range 9).map rand
      match loopA ctx (loopFuel ctx) (initState start) with
      | .ok p evs =>
          .ok p
            ([.report .createdRandomPoints,
              .report (.startLocation start)] ++ evs)
      | .err e => .err e
      | .timeout => .timeout


/-! ### The exact order on represented f values -/

/-- Real value of the `f` component of an open-set tuple. -/
noncomputable def fVal (e : Entry) : ℝ := (e.fg : ℝ) + Real.sqrt (e.fd : ℝ)

/-- Squaring equivalence for nonnegative reals. -/
theorem le_iff_sq_le_sq {x y : ℝ} (hx : 0 ≤ x) (hy : 0 ≤ y) :
    x ≤ y ↔ x ^ 2 ≤ y ^ 2 :=
  (pow_le_pow_iff_left₀ hx hy (by norm_num)).symm

/-- Comparison of `sqrt d1` against `a + sqrt d2` for a nonnegative integer
shift `a`, reduced to integer arithmetic. -/
theorem sqrtCmp_nonneg (a : ℤ) (d1 d2 : ℕ) (ha : 0 ≤ a) :
    (Real.sqrt (d1 : ℝ) ≤ (a : ℝ) + Real.sqrt (d2 : ℝ)) ↔
      ((d1 : ℤ) - a ^ 2 - (d2 : ℤ) ≤ 0 ∨
        ((d1 : ℤ) - a ^ 2 - (d2 : ℤ)) ^ 2 ≤ 4 * a ^ 2 * (d2 : ℤ)) := by
  have h1 : (0 : ℝ) ≤ Real.sqrt (d1 : ℝ) := Real.sqrt_nonneg _
  have h2 : (0 : ℝ) ≤ Real.sqrt (d2 : ℝ) := Real.sqrt_nonneg _
  have hsq1 : Real.sqrt (d1 : ℝ) ^ 2 = (d1 : ℝ) := Real.sq_sqrt (by positivity)
  have hsq2 : Real.sqrt (d2 : ℝ) ^ 2 = (d2 : ℝ) := Real.sq_sqrt (by positivity)
  have haR : (0 : ℝ) ≤ (a : ℝ) := by exact_mod_cast ha
  rw [le_iff_sq_le_sq h1 (by linarith)]
  have hexpand : ((a : ℝ) + Real.sqrt (d2 : ℝ)) ^ 2
      = (a : ℝ) ^ 2 + 2 * (a : ℝ) * Real.sqrt (d2 : ℝ) + (d2 : ℝ) := by
    have : ((a : ℝ) + Real.sqrt (d2 : ℝ)) ^ 2
        = (a : ℝ) ^ 2 + 2 * (a : ℝ) * Real.sqrt (d2 : ℝ) + Real.sqrt (d2 : ℝ) ^ 2 := by
      ring
    rw [this, hsq2]
  rw [hsq1, hexpand]
  constructor
  · intro h
    have hkey : ((d1 : ℝ) - (a : ℝ) ^ 2 - (d2 : ℝ)) ≤ 2 * (a : ℝ) * Real.sqrt (d2 : ℝ) := by
      linarith
    by_cases ht : (d1 : ℤ) - a ^ 2 - (d2 : ℤ) ≤ 0
    · exact Or.inl ht
    · right
      have htpos : (0 : ℤ) < (d1 : ℤ) - a ^ 2 - (d2 : ℤ) := lt_of_not_le ht
      have htR : (0 : ℝ) < (d1 : ℝ) - (a : ℝ) ^ 2 - (d2 : ℝ) := by exact_mod_cast htpos
      have hrhs : (0 : ℝ) ≤ 2 * (a : ℝ) * Real.sqrt (d2 : ℝ) := by positivity
      have hsq : ((d1 : ℝ) - (a : ℝ) ^ 2 - (d2 : ℝ)) ^ 2
          ≤ (2 * (a : ℝ) * Real.sqrt (d2 : ℝ)) ^ 2 :=
        (le_iff_sq_le_sq (le_of_lt htR) hrhs).mp hkey
      have hr : (2 * (a : ℝ) * Real.sqrt (d2 : ℝ)) ^ 2 = 4 * (a : ℝ) ^ 2 * (d2 : ℝ) := by
        have : (2 * (a : ℝ) * Real.sqrt (d2 : ℝ)) ^ 2
            = 4 * (a : ℝ) ^ 2 * Real.sqrt (d2 : ℝ) ^ 2 := by ring
        rw [this, hsq2]
      rw [hr] at hsq
      exact_mod_cast hsq
  · intro h
    have hkey : ((d1 : ℝ) - (a : ℝ) ^ 2 - (d2 : ℝ)) ≤ 2 * (a : ℝ) * Real.sqrt (d2 : ℝ) := by
      have hrhs : (0 : ℝ) ≤ 2 * (a : ℝ) * Real.sqrt (d2 : ℝ) := by positivity
      rcases h with ht | hsq
      · have : ((d1 : ℝ) - (a : ℝ) ^ 2 - (d2 : ℝ)) ≤ 0 := by exact_mod_cast ht
        linarith
      · by_cases ht : (d1 : ℤ) - a ^ 2 - (d2 : ℤ) ≤ 0
        · have : ((d1 : ℝ) - (a : ℝ) ^ 2 - (d2 : ℝ)) ≤ 0 := by exact_mod_cast ht
          linarith
        · have htpos : (0 : ℤ) < (d1 : ℤ) - a ^ 2 - (d2 : ℤ) := lt_of_not_le ht
          have htR : (0 : ℝ) < (d1 : ℝ) - (a : ℝ) ^ 2 - (d2 : ℝ) := by exact_mod_cast htpos
          have hsqR : ((d1 : ℝ) - (a : ℝ) ^ 2 - (d2 : ℝ)) ^ 2
              ≤ 4 * (a : ℝ) ^ 2 * (d2 : ℝ) := by
            exact_mod_cast hsq
          have hr : (2 * (a : ℝ) * Real.sqrt (d2 : ℝ)) ^ 2 = 4 * (a : ℝ) ^ 2 * (d2 : ℝ) := by
            have : (2 * (a : ℝ) * Real.sqrt (d2 : ℝ)) ^ 2
                = 4 * (a : ℝ) ^ 2 * Real.sqrt (d2 : ℝ) ^ 2 := by ring
            rw [this, hsq2]
          rw [← hr] at hsqR
          exact (le_iff_sq_le_sq (le_of_lt htR) hrhs).mpr hsqR
    linarith

/-- Comparison of `sqrt d1` against `a + sqrt d2` for a negative integer
shift `a`, reduced to integer arithmetic. -/
theorem sqrtCmp_neg (a : ℤ) (d1 d2 : ℕ) (ha : a < 0) :
    (Real.sqrt (d1 : ℝ) ≤ (a : ℝ) + Real.sqrt (d2 : ℝ)) ↔
      (0 ≤ (d2 : ℤ) - (d1 : ℤ) - a ^ 2 ∧
        4 * a ^ 2 * (d1 : ℤ) ≤ ((d2 : ℤ) - (d1 : ℤ) - a ^ 2) ^ 2) := by
  have h1 : (0 : ℝ) ≤ Real.sqrt (d1 : ℝ) := Real.sqrt_nonneg _
  have h2 : (0 : ℝ) ≤ Real.sqrt (d2 : ℝ) := Real.sqrt_nonneg _
  have hsq1 : Real.sqrt (d1 : ℝ) ^ 2 = (d1 : ℝ) := Real.sq_sqrt (by positivity)
  have hsq2 : Real.sqrt (d2 : ℝ) ^ 2 = (d2 : ℝ) := Real.sq_sqrt (by positivity)
  have haR : ((a : ℤ) : ℝ) < 0 := by exact_mod_cast ha
  have hmove : (Real.sqrt (d1 : ℝ) ≤ (a : ℝ) + Real.sqrt (d2 : ℝ))
      ↔ Real.sqrt (d1 : ℝ) + (-(a : ℝ)) ≤ Real.sqrt (d2 : ℝ) := by
    constructor <;> intro h <;> linarith
  have hx : (0 : ℝ) ≤ Real.sqrt (d1 : ℝ) + (-(a : ℝ)) := by linarith
  have hlhs : (0 : ℝ) ≤ 2 * (-(a : ℝ)) * Real.sqrt (d1 : ℝ) := by
    have hna : (0 : ℝ) ≤ -(a : ℝ) := by linarith
    positivity
  have hr : (2 * (-(a : ℝ)) * Real.sqrt (d1 : ℝ)) ^ 2 = 4 * (a : ℝ) ^ 2 * (d1 : ℝ) := by
    have : (2 * (-(a : ℝ)) * Real.sqrt (d1 : ℝ)) ^ 2
        = 4 * (a : ℝ) ^ 2 * Real.sqrt (d1 : ℝ) ^ 2 := by ring
    rw [this, hsq1]
  have hsplit : (Real.sqrt (d1 : ℝ) + (-(a : ℝ)) ≤ Real.sqrt (d2 : ℝ))
      ↔ 2 * (-(a : ℝ)) * Real.sqrt (d1 : ℝ) ≤ (d2 : ℝ) - (d1 : ℝ) - (a : ℝ) ^ 2 := by
    rw [le_iff_sq_le_sq hx h2]
    have hexpand : (Real.sqrt (d1 : ℝ) + (-(a : ℝ))) ^ 2
        = (d1 : ℝ) + 2 * (-(a : ℝ)) * Real.sqrt (d1 : ℝ) + (a : ℝ) ^ 2 := by
      have : (Real.sqrt (d1 : ℝ) + (-(a : ℝ))) ^ 2
          = Real.sqrt (d1 : ℝ) ^ 2 + 2 * (-(a : ℝ)) * Real.sqrt (d1 : ℝ) + (a : ℝ) ^ 2 := by
        ring
      rw [this, hsq1]
    rw [hexpand, hsq2]
    constructor <;> intro h <;> linarith
  rw [hmove, hsplit]
  constructor
  · intro h
    have hs0R : (0 : ℝ) ≤ (d2 : ℝ) - (d1 : ℝ) - (a : ℝ) ^ 2 := le_trans hlhs h
    have hs0 : (0 : ℤ) ≤ (d2 : ℤ) - (d1 : ℤ) - a ^ 2 := by exact_mod_cast hs0R
    refine ⟨hs0, ?_⟩
    have hsq : (2 * (-(a : ℝ)) * Real.sqrt (d1 : ℝ)) ^ 2
        ≤ ((d2 : ℝ) - (d1 : ℝ) - (a : ℝ) ^ 2) ^ 2 := (le_iff_sq_le_sq hlhs hs0R).mp h
    rw [hr] at hsq
    exact_mod_cast hsq
  · rintro ⟨hs0, hsq⟩
    have hs0R : (0 : ℝ) ≤ (d2 : ℝ) - (d1 : ℝ) - (a : ℝ) ^ 2 := by exact_mod_cast hs0
    have hsqR : 4 * (a : ℝ) ^ 2 * (d1 : ℝ) ≤ ((d2 : ℝ) - (d1 : ℝ) - (a : ℝ) ^ 2) ^ 2 := by
      exact_mod_cast hsq
    rw [← hr] at hsqR
    exact (le_iff_sq_le_sq hlhs hs0R).mpr hsqR

/-- Correctness of the integer decision procedure for the order on
`fg + sqrt fd` values. -/
theorem fLe_iff (g1 d1 g2 d2 : ℕ) :
    fLe g1 d1 g2 d2 = true ↔
      (g1 : ℝ) + Real.sqrt (d1 : ℝ) ≤ (g2 : ℝ) + Real.sqrt (d2 : ℝ) := by
  have hmain : ((g1 : ℝ) + Real.sqrt (d1 : ℝ) ≤ (g2 : ℝ) + Real.sqrt (d2 : ℝ))
      ↔ Real.sqrt (d1 : ℝ) ≤ ((((g2 : ℤ) - (g1 : ℤ)) : ℤ) : ℝ) + Real.sqrt (d2 : ℝ) := by
    push_cast
    constructor <;> intro h <;> linarith
  rw [hmain, fLe]
  by_cases ha : (0 : ℤ) ≤ (g2 : ℤ) - (g1 : ℤ)
  · rw [if_pos ha, sqrtCmp_nonneg _ _ _ ha]
    simp only [Bool.or_eq_true, decide_eq_true_eq]
  · rw [if_neg ha, sqrtCmp_neg _ _ _ (lt_of_not_le ha)]
    simp only [Bool.and_eq_true, decide_eq_true_eq]

/-- The entry comparison `fLe` phrased on `fVal`. -/
theorem fLe_iff_fVal (x y : Entry) : fLe x.fg x.fd y.fg y.fd = true ↔ fVal x ≤ fVal y :=
  fLe_iff x.fg x.fd y.fg y.fd

/-- The strict comparison `entryLt` agrees with the real order on f
values. -/
theorem entryLt_iff (x y : Entry) : entryLt x y = true ↔ fVal x < fVal y := by
  rw [entryLt, Bool.not_eq_true']
  constructor
  · intro h
    refine not_le.mp (fun hle => ?_)
    have : fLe y.fg y.fd x.fg x.fd = true := (fLe_iff_fVal y x).mpr hle
    rw [this] at h
    cases h
  · intro h
    cases hb : fLe y.fg y.fd x.fg x.fd
    · rfl
    · exact absurd ((fLe_iff_fVal y x).mp hb) (not_le.mpr h)

/-- Negation of `entryLt` is the reverse inclusive order. -/
theorem entryLt_eq_false_iff (x y : Entry) : entryLt x y = false ↔ fVal y ≤ fVal x := by
  constructor
  · intro h
    refine not_lt.mp (fun hlt => ?_)
    have := (entryLt_iff x y).mpr hlt
    rw [h] at this
    cases this
  · intro h
    cases hb : entryLt x y
    · rfl
    · exact absurd ((entryLt_iff x y).mp hb) (not_lt.mpr h)

/-! ### List and association-list lemmas -/

/-- Unfolding of `minF` over a cons. -/
theorem minF_cons (e x : Entry) (t : List Entry) :
    minF e (x :: t) = minF (if entryLt x e then x else e) t := rfl

/-- Decomposition of the scan for the minimum: the chosen tuple is the
earliest one attaining the minimal f value, so everything to its left is
strictly larger and everything to its right at least as large. -/
theorem minF_decomp (l : List Entry) : ∀ e : Entry,
    ∃ l1 l2, e :: l = l1 ++ minF e l :: l2 ∧
      (∀ x ∈ l1, fVal (minF e l) < fVal x) ∧
      (∀ x ∈ l2, fVal (minF e l) ≤ fVal x) := by
  induction l with
  | nil =>
    intro e
    exact ⟨[], [], rfl,
      fun x hx => absurd hx (List.not_mem_nil x),
      fun x hx => absurd hx (List.not_mem_nil x)⟩
  | cons x t ih =>
    intro e
    rw [minF_cons]
    by_cases hlt : entryLt x e = true
    · rw [if_pos hlt]
      obtain ⟨l1, l2, heq, hstrict, hle⟩ := ih x
      have hmx : fVal (minF x t) ≤ fVal x := by
        cases l1 with
        | nil =>
          have : minF x t = x := by
            have := heq
            simp only [List.nil_append, List.cons.injEq] at this
            exact this.1.symm
          rw [this]
        | cons y t1 =>
          have hxy : x = y := by
            have := heq
            simp only [List.cons_append, List.cons.injEq] at this
            exact this.1
          have h2 := hstrict y (List.mem_cons_self y t1)
          rw [← hxy] at h2
          exact le_of_lt h2
      refine ⟨e :: l1, l2, ?_, ?_, hle⟩
      · rw [List.cons_append, ← heq]
      · intro z hz
        rcases List.mem_cons.mp hz with hz | hz
        · rw [hz]
          exact lt_of_le_of_lt hmx ((entryLt_iff x e).mp hlt)
        · exact hstrict z hz
    · rw [if_neg hlt]
      have hex : fVal e ≤ fVal x :=
        (entryLt_eq_false_iff x e).mp (Bool.not_eq_true _ ▸ Bool.of_not_eq_true hlt)
      obtain ⟨l1, l2, heq, hstrict, hle⟩ := ih e
      cases l1 with
      | nil =>
        have hme : minF e t = e := by
          have := heq
          simp only [List.nil_append, List.cons.injEq] at this
          exact this.1.symm
        have ht2 : t = l2 := by
          have := heq
          simp only [List.nil_append, List.cons.injEq] at this
          exact this.2
        refine ⟨[], x :: t, ?_, ?_, ?_⟩
        · simp [hme]
        · intro z hz
          cases hz
        · intro z hz
          rcases List.mem_cons.mp hz with hz | hz
          · rw [hz, hme]
            exact hex
          · exact hle z (ht2 ▸ hz)
      | cons y t1 =>
        have hye : y = e := by
          have := heq
          simp only [List.cons_append, List.cons.injEq] at this
          exact this.1.symm
        have htt : t = t1 ++ minF e t :: l2 := by
          have := heq
          simp only [List.cons_append, List.cons.injEq] at this
          exact this.2
        refine ⟨e :: x :: t1, l2, ?_, ?_, hle⟩
        · show e :: x :: t = (e :: x :: t1) ++ minF e t :: l2
          conv_lhs => rw [htt]
          simp
        · intro z hz
          rcases List.mem_cons.mp hz with hz | hz
          · rw [hz]
            exact hstrict e (hye ▸ List.mem_cons_self y t1)
          · rcases List.mem_cons.mp hz with hz | hz
            · rw [hz]
              exact lt_of_lt_of_le (hstrict e (hye ▸ List.mem_cons_self y t1)) hex
            · exact hstrict z (by simp [hz])

/-- The popped tuple is a member of the open set. -/
theorem minF_mem (e : Entry) (l : List Entry) : minF e l ∈ e :: l := by
  obtain ⟨l1, l2, heq, -, -⟩ := minF_decomp l e
  rw [heq]
  exact List.mem_append.mpr (Or.inr (List.mem_cons_self _ _))

/-- The popped tuple has minimal f value. -/
theorem minF_le (e : Entry) (l : List Entry) :
    ∀ x ∈ e :: l, fVal (minF e l) ≤ fVal x := by
  obtain ⟨l1, l2, heq, hstrict, hle⟩ := minF_decomp l e
  intro x hx
  rw [heq] at hx
  rcases List.mem_append.mp hx with hx | hx
  · exact le_of_lt (hstrict x hx)
  · rcases List.mem_cons.mp hx with hx | hx
    · rw [hx]
    · exact hle x hx

/-- Removing an element absent from the left part of a split list. -/
theorem erase1_append_notmem (m : Entry) (l2 : List Entry) :
    ∀ l1 : List Entry, (∀ x ∈ l1, x ≠ m) →
      erase1 (l1 ++ m :: l2) m = l1 ++ l2 := by
  intro l1
  induction l1 with
  | nil =>
    intro _
    simp [erase1]
  | cons y t ih =>
    intro hne
    have hy : y ≠ m := hne y (List.mem_cons_self _ _)
    show erase1 (y :: (t ++ m :: l2)) m = y :: (t ++ l2)
    rw [erase1, if_neg hy, ih (fun x hx => hne x (List.mem_cons_of_mem _ hx))]

/-- Membership survives `erase1` for any element distinct from the removed
one. -/
theorem mem_erase1_of_ne {x m : Entry} : ∀ {l : List Entry},
    x ∈ l → x ≠ m → x ∈ erase1 l m := by
  intro l
  induction l with
  | nil => intro h; cases h
  | cons y t ih =>
    intro hx hne
    rw [erase1]
    by_cases hym : y = m
    · rw [if_pos hym]
      rcases List.mem_cons.mp hx with hx | hx
      · exact absurd (hx.trans hym) hne
      · exact hx
    · rw [if_neg hym]
      rcases List.mem_cons.mp hx with hx | hx
      · exact hx ▸ List.mem_cons_self _ _
      · exact List.mem_cons_of_mem _ (ih hx hne)

/-- `erase1` only removes. -/
theorem erase1_subset (m : Entry) : ∀ l : List Entry, ∀ x ∈ erase1 l m, x ∈ l := by
  intro l
  induction l with
  | nil => intro x hx; cases hx
  | cons y t ih =>
    intro x hx
    rw [erase1] at hx
    by_cases hym : y = m
    · rw [if_pos hym] at hx
      exact List.mem_cons_of_mem _ hx
    · rw [if_neg hym] at hx
      rcases List.mem_cons.mp hx with hx | hx
      · exact hx ▸ List.mem_cons_self _ _
      · exact List.mem_cons_of_mem _ (ih x hx)

/-- Removing a present element shortens the list by one. -/
theorem erase1_length {m : Entry} : ∀ {l : List Entry},
    m ∈ l → (erase1 l m).length + 1 = l.length := by
  intro l
  induction l with
  | nil => intro h; cases h
  | cons y t ih =>
    intro hm
    rw [erase1]
    by_cases hym : y = m
    · rw [if_pos hym]
      simp
    · rw [if_neg hym]
      have : m ∈ t := by
        rcases List.mem_cons.mp hm with h | h
        · exact absurd h.symm hym
        · exact h
      simp only [List.length_cons, ih this]

/-- Lookup after assignment at the assigned key. -/
theorem lookupA_insertA_self {β : Type} (l : List (Cell × β)) (k : Cell) (v : β) :
    lookupA (insertA l k v) k = some v := by
  induction l with
  | nil => simp [insertA, lookupA]
  | cons p t ih =>
    obtain ⟨k', w⟩ := p
    rw [insertA]
    by_cases h : k' = k
    · rw [if_pos h, lookupA, if_pos rfl]
    · rw [if_neg h, lookupA, if_neg h]
      exact ih

/-- Lookup after assignment at any other key. -/
theorem lookupA_insertA_ne {β : Type} (l : List (Cell × β)) (k c : Cell) (v : β)
    (h : c ≠ k) : lookupA (insertA l k v) c = lookupA l c := by
  induction l with
  | nil => simp [insertA, lookupA, Ne.symm h]
  | cons p t ih =>
    obtain ⟨k', w⟩ := p
    rw [insertA]
    by_cases hk : k' = k
    · have hkc : ¬ k = c := Ne.symm h
      have hkc' : ¬ k' = c := fun he => (Ne.symm h) (hk.symm.trans he)
      rw [if_pos hk, lookupA, if_neg hkc, lookupA, if_neg hkc']
    · rw [if_neg hk, lookupA, lookupA]
      by_cases hc : k' = c
      · rw [if_pos hc, if_pos hc]
      · rw [if_neg hc, if_neg hc]
        exact ih

/-- Assignment to a present key preserves the length. -/
theorem insertA_length_present {β : Type} : ∀ (l : List (Cell × β)) (k : Cell) (v : β),
    (lookupA l k).isSome → (insertA l k v).length = l.length := by
  intro l
  induction l with
  | nil => intro k v h; simp [lookupA] at h
  | cons p t ih =>
    intro k v h
    obtain ⟨k', w⟩ := p
    rw [insertA]
    by_cases hk : k' = k
    · rw [if_pos hk]
      simp
    · rw [if_neg hk]
      rw [lookupA, if_neg hk] at h
      simp only [List.length_cons, ih k v h]

/-- Assignment to a fresh key appends. -/
theorem insertA_length_fresh {β : Type} : ∀ (l : List (Cell × β)) (k : Cell) (v : β),
    lookupA l k = none → (insertA l k v).length = l.length + 1 := by
  intro l
  induction l with
  | nil => intro k v _; simp [insertA]
  | cons p t ih =>
    intro k v h
    obtain ⟨k', w⟩ := p
    rw [lookupA] at h
    by_cases hk : k' = k
    · rw [if_pos hk] at h
      cases h
    · rw [if_neg hk] at h
      rw [insertA, if_neg hk]
      simp only [List.length_cons, ih k v h]

/-- A successful lookup means the key occurs in the key list. -/
theorem lookupA_isSome_mem {β : Type} : ∀ (l : List (Cell × β)) (k : Cell),
    (lookupA l k).isSome ↔ k ∈ l.map Prod.fst := by
  intro l
  induction l with
  | nil => intro k; simp [lookupA]
  | cons p t ih =>
    intro k
    obtain ⟨k', w⟩ := p
    rw [lookupA]
    by_cases hk : k' = k
    · rw [if_pos hk]
      simp [hk]
    · rw [if_neg hk]
      simp only [List.map_cons, List.mem_cons]
      rw [ih]
      constructor
      · exact Or.inr
      · rintro (h | h)
        · exact absurd h.symm hk
        · exact h

/-- Keys after an assignment. -/
theorem insertA_keys {β : Type} : ∀ (l : List (Cell × β)) (k : Cell) (v : β),
    ∀ c ∈ (insertA l k v).map Prod.fst, c = k ∨ c ∈ l.map Prod.fst := by
  intro l
  induction l with
  | nil =>
    intro k v c hc
    simp [insertA] at hc
    exact Or.inl hc
  | cons p t ih =>
    intro k v c hc
    obtain ⟨k', w⟩ := p
    rw [insertA] at hc
    by_cases hk : k' = k
    · rw [if_pos hk] at hc
      rcases List.mem_cons.mp hc with h | h
      · exact Or.inl h
      · exact Or.inr (by simp [h])
    · rw [if_neg hk] at hc
      rcases List.mem_cons.mp hc with h | h
      · exact Or.inr (by simp [h])
      · rcases ih k v c h with h' | h'
        · exact Or.inl h'
        · exact Or.inr (by simp [h'])

/-! ### The step graph of the search -/

/-- A cell passing the source's guard at line 99: within bounds and
holding the value `1`. -/
def OkCell (ctx : Ctx) (c : Cell) : Prop :=
  inB ctx c = true ∧ cellAt ctx c = some 1

/-- Walks of the search graph: starting anywhere, each step moves by one of
the four offsets into a cell passing the guard.  This is exactly the set
of moves the search can make; note that the source never guards the cell
currently being expanded, only the neighbor being entered. -/
inductive Steps (ctx : Ctx) : Cell → Cell → ℕ → Prop where
  | refl (a : Cell) : Steps ctx a a 0
  | tail {a b : Cell} {n : ℕ} (d : ℤ × ℤ) (hd : d ∈ movements)
      (hs : Steps ctx a b n) (hok : OkCell ctx (cadd b d)) :
      Steps ctx a (cadd b d) (n + 1)

/-- One-step adjacency by a movement offset. -/
def AdjStep (k u : Cell) : Prop := ∃ d ∈ movements, u = cadd k d

/-- Embedding of a cell into the complex plane (proof-side only). -/
noncomputable def toC (c : Cell) : ℂ := ⟨(c.1 : ℝ), (c.2 : ℝ)⟩

/-- The square root of `d2` is the Euclidean distance of the embedded
cells. -/
theorem sqrt_d2_eq (a b : Cell) :
    Real.sqrt ((d2 a b : ℕ) : ℝ) = Complex.abs (toC a - toC b) := by
  rw [Complex.abs_apply]
  congr 1
  rw [Complex.normSq_apply]
  have hre : (toC a - toC b).re = (a.1 : ℝ) - (b.1 : ℝ) := by
    simp [toC, Complex.sub_re]
  have him : (toC a - toC b).im = (a.2 : ℝ) - (b.2 : ℝ) := by
    simp [toC, Complex.sub_im]
  have hnn : (0 : ℤ) ≤ (a.1 - b.1) ^ 2 + (a.2 - b.2) ^ 2 := by positivity
  have hcast : ((((a.1 - b.1) ^ 2 + (a.2 - b.2) ^ 2).toNat : ℕ) : ℝ)
      = (((a.1 - b.1) ^ 2 + (a.2 - b.2) ^ 2 : ℤ) : ℝ) := by
    rw [← Int.cast_natCast, Int.toNat_of_nonneg hnn]
  rw [hre, him, d2, hcast]
  push_cast
  ring

/-- A single movement offset has Euclidean length one. -/
theorem step_dist_one (b : Cell) (d : ℤ × ℤ) (hd : d ∈ movements) :
    Complex.abs (toC (cadd b d) - toC b) = 1 := by
  have hco : toC (cadd b d) - toC b = ⟨(d.1 : ℝ), (d.2 : ℝ)⟩ := by
    apply Complex.ext
    · simp [toC, cadd, Complex.sub_re]
    · simp [toC, cadd, Complex.sub_im]
  rw [hco, Complex.abs_apply, Complex.normSq_mk]
  simp only [movements, List.mem_cons, List.not_mem_nil, or_false] at hd
  rcases hd with rfl | rfl | rfl | rfl <;> norm_num

/-- Admissibility of the Euclidean heuristic: a walk of `n` steps
separates its endpoints by Euclidean distance at most `n`. -/
theorem steps_admissible {ctx : Ctx} {a b : Cell} {n : ℕ}
    (h : Steps ctx a b n) : Real.sqrt ((d2 a b : ℕ) : ℝ) ≤ (n : ℝ) := by
  induction h with
  | refl =>
    have hz : d2 a a = 0 := by simp [d2]
    rw [hz]
    simp
  | tail d hd hs hok ih =>
    rename_i b' n'
    rw [sqrt_d2_eq]
    have htri : Complex.abs (toC a - toC (cadd b' d))
        ≤ Complex.abs (toC a - toC b') + Complex.abs (toC b' - toC (cadd b' d)) :=
      Complex.abs.sub_le _ _ _
    have hone : Complex.abs (toC b' - toC (cadd b' d)) = 1 := by
      rw [Complex.abs.map_sub]
      exact step_dist_one b' d hd
    have hprev : Complex.abs (toC a - toC b') ≤ (n' : ℝ) := by
      rw [← sqrt_d2_eq]
      exact ih
    rw [hone] at htri
    push_cast
    linarith

/-! ### Characterization of one relaxation -/

/-- Full case analysis of a successful `relaxOne`: either nothing happens
(guard failed, or the neighbor already has a recorded cost at most the
tentative one), or the neighbor passes the guard, is new or strictly
cheaper, and the state is updated. -/
theorem relaxOne_spec (ctx : Ctx) (cur : Cell) (curG : ℕ) (st : AState)
    (d : ℤ × ℤ) (st' : AState) (h : relaxOne ctx cur curG st d = .ok st') :
    (st' = st ∧ (¬ OkCell ctx (cadd cur d) ∨
        ∃ old, lookupA st.g_scores (cadd cur d) = some old ∧ curG + 1 ≥ old)) ∨
      (OkCell ctx (cadd cur d) ∧
        (∀ old, lookupA st.g_scores (cadd cur d) = some old → curG + 1 < old) ∧
        st' = relaxed ctx cur curG st (cadd cur d)) := by
  rw [relaxOne] at h
  split at h
  · rename_i hb
    split at h
    · cases h
    · rename_i v hc
      split at h
      · rename_i hv
        subst hv
        split at h
        · rename_i hnone
          right
          refine ⟨⟨hb, hc⟩, ?_, ?_⟩
          · intro old hold
            rw [hold] at hnone
            cases hnone
          · cases h
            rfl
        · rename_i old hold
          split at h
          · rename_i hlt
            right
            refine ⟨⟨hb, hc⟩, ?_, ?_⟩
            · intro o ho
              rw [ho] at hold
              cases hold
              exact hlt
            · cases h
              rfl
          · rename_i hlt
            left
            cases h
            exact ⟨rfl, Or.inr ⟨old, hold, by omega⟩⟩
      · rename_i hv
        left
        cases h
        refine ⟨rfl, Or.inl (fun hok => ?_)⟩
        rw [hok.2] at hc
        cases hc
        exact hv rfl
  · rename_i hb
    left
    cases h
    exact ⟨rfl, Or.inl (fun hok => hb hok.1)⟩

/-- A failing `relaxOne` is exactly an in-bounds access on a row too short
to contain it. -/
theorem relaxOne_error (ctx : Ctx) (cur : Cell) (curG : ℕ) (st : AState)
    (d : ℤ × ℤ) (e : PyErr) (h : relaxOne ctx cur curG st d = .error e) :
    inB ctx (cadd cur d) = true ∧ cellAt ctx (cadd cur d) = none := by
  rw [relaxOne] at h
  split at h
  · rename_i hb
    split at h
    · rename_i hc
      exact ⟨hb, hc⟩
    · split at h
      · split at h
        · cases h
        · split at h
          · cases h
          · cases h
      · cases h
  · cases h

/-- After processing an offset whose neighbor passes the guard, the
neighbor's recorded cost exists and is at most the tentative cost. -/
theorem relaxOne_processed (ctx : Ctx) (cur : Cell) (curG : ℕ) (st : AState)
    (d : ℤ × ℤ) (st' : AState) (h : relaxOne ctx cur curG st d = .ok st')
    (hok : OkCell ctx (cadd cur d)) :
    ∃ vu, lookupA st'.g_scores (cadd cur d) = some vu ∧ vu ≤ curG + 1 := by
  rcases relaxOne_spec ctx cur curG st d st' h with ⟨heq, hrest⟩ | ⟨_, _, heq⟩
  · subst heq
    rcases hrest with hno | ⟨old, hold, hle⟩
    · exact absurd hok hno
    · exact ⟨old, hold, hle⟩
  · rw [heq]
    exact ⟨curG + 1, lookupA_insertA_self _ _ _, le_refl _⟩

/-! ### The search invariant -/

/-- Core invariant of the main loop, relating the open set and the two
dicts.  (The frontier property `Gi` is stated separately because it is
temporarily weakened in the middle of a neighbor expansion.) -/
structure InvC (ctx : Ctx) (st : AState) : Prop where
  start0 : lookupA st.g_scores ctx.start = some 0
  val_lt : ∀ k v, lookupA st.g_scores k = some v → v < st.g_scores.length
  keys_ok : ∀ k ∈ st.g_scores.map Prod.fst, k = ctx.start ∨ inB ctx k = true
  keysND : (st.g_scores.map Prod.fst).Nodup
  open_g_lt : ∀ e ∈ st.open_set, e.g < st.g_scores.length
  open_form : ∀ e ∈ st.open_set,
    (e.fg = e.g ∧ e.fd = d2 e.node ctx.endc) ∨ e = seedEntry ctx.start
  open_node_g : ∀ e ∈ st.open_set,
    ∃ v, lookupA st.g_scores e.node = some v ∧ v ≤ e.g
  open_reach : ∀ e ∈ st.open_set, ∃ n, Steps ctx ctx.start e.node n
  par_keys : ∀ k, (lookupA st.parents k).isSome ↔
    ((lookupA st.g_scores k).isSome ∧ k ≠ ctx.start)
  par_len : st.parents.length + 1 = st.g_scores.length
  par_adj : ∀ k p, lookupA st.parents k = some p → AdjStep p k ∧ OkCell ctx k
  par_dec : ∀ k p, lookupA st.parents k = some p →
    ∃ vk vp, lookupA st.g_scores k = some vk ∧
      lookupA st.g_scores p = some vp ∧ vp < vk
  ge : ∀ v, lookupA st.g_scores ctx.endc = some v →
    ∃ e ∈ st.open_set, e.node = ctx.endc ∧ e.g = v

/-- The frontier property: every recorded cost is witnessed by an open
tuple, or the cell has already offered all its guarded neighbors a cost
at most one larger. -/
def Gi (ctx : Ctx) (st : AState) : Prop :=
  ∀ k v, lookupA st.g_scores k = some v →
    (∃ e ∈ st.open_set, e.node = k ∧ e.g = v) ∨
    (∀ u, AdjStep k u → OkCell ctx u →
      ∃ vu, lookupA st.g_scores u = some vu ∧ vu ≤ v + 1)

/-- The search invariant. -/
def SInv (ctx : Ctx) (st : AState) : Prop := InvC ctx st ∧ Gi ctx st

/-- Mid-expansion frontier property: as `Gi`, but the popped pair
`(cur, curG)` may instead rely on the offsets already processed. -/
def GiMid (ctx : Ctx) (cur : Cell) (curG : ℕ) (processed : List (ℤ × ℤ))
    (st : AState) : Prop :=
  ∀ k v, lookupA st.g_scores k = some v →
    (∃ e ∈ st.open_set, e.node = k ∧ e.g = v) ∨
    (∀ u, AdjStep k u → OkCell ctx u →
      ∃ vu, lookupA st.g_scores u = some vu ∧ vu ≤ v + 1) ∨
    (k = cur ∧ v = curG ∧ ∀ d ∈ processed, OkCell ctx (cadd cur d) →
      ∃ vu, lookupA st.g_scores (cadd cur d) = some vu ∧ vu ≤ v + 1)

/-- The invariant holds at loop entry. -/
theorem inv_init (ctx : Ctx) : SInv ctx (initState ctx.start) := by
  constructor
  · constructor
    · rw [initState, lookupA, if_pos rfl]
    · intro k v hkv
      rw [initState] at hkv ⊢
      rw [lookupA] at hkv
      by_cases hk : ctx.start = k
      · rw [if_pos hk] at hkv
        cases hkv
        simp
      · rw [if_neg hk, lookupA] at hkv
        cases hkv
    · intro k hk
      rw [initState] at hk
      simp at hk
      exact Or.inl hk
    · rw [initState]
      simp
    · intro e he
      rw [initState] at he
      simp at he
      rw [he, initState, seedEntry]
      simp
    · intro e he
      rw [initState] at he
      simp at he
      exact Or.inr he
    · intro e he
      rw [initState] at he
      simp at he
      refine ⟨0, ?_, ?_⟩
      · rw [he, initState, seedEntry, lookupA, if_pos rfl]
      · rw [he, seedEntry]
    · intro e he
      rw [initState] at he
      simp at he
      rw [he, seedEntry]
      exact ⟨0, Steps.refl ctx.start⟩
    · intro k
      rw [initState]
      constructor
      · intro h
        rw [lookupA] at h
        cases h
      · rintro ⟨hg, hk⟩
        rw [lookupA] at hg
        by_cases hsk : ctx.start = k
        · exact absurd hsk.symm hk
        · rw [if_neg hsk, lookupA] at hg
          cases hg
    · rw [initState]
      simp [lookupA]
    · intro k p h
      rw [initState, lookupA] at h
      cases h
    · intro k p h
      rw [initState, lookupA] at h
      cases h
    · intro v hv
      rw [initState, lookupA] at hv
      by_cases hk : ctx.start = ctx.endc
      · rw [if_pos hk] at hv
        cases hv
        refine ⟨seedEntry ctx.start, ?_, ?_, rfl⟩
        · rw [initState]
          simp
        · rw [seedEntry, hk]
      · rw [if_neg hk, lookupA] at hv
        cases hv
  · intro k v hkv
    rw [initState, lookupA] at hkv
    by_cases hk : ctx.start = k
    · rw [if_pos hk] at hkv
      cases hkv
      left
      refine ⟨seedEntry ctx.start, ?_, hk, rfl⟩
      rw [initState]
      simp
    · rw [if_neg hk, lookupA] at hkv
      cases hkv

/-- None of the four offsets is zero, so a neighbor is never the cell
itself. -/
theorem cadd_ne_self (c : Cell) (d : ℤ × ℤ) (hd : d ∈ movements) :
    cadd c d ≠ c := by
  simp only [movements, List.mem_cons, List.not_mem_nil, or_false] at hd
  rcases hd with rfl | rfl | rfl | rfl <;>
    · intro h
      rw [cadd, Prod.ext_iff] at h
      omega

/-- Assignment to a present key leaves the key list unchanged. -/
theorem insertA_keys_present {β : Type} : ∀ (l : List (Cell × β)) (k : Cell) (v : β),
    (lookupA l k).isSome → (insertA l k v).map Prod.fst = l.map Prod.fst := by
  intro l
  induction l with
  | nil => intro k v h; rw [lookupA] at h; cases h
  | cons p t ih =>
    intro k v h
    obtain ⟨k', w⟩ := p
    rw [insertA]
    by_cases hk : k' = k
    · rw [if_pos hk]
      simp [hk]
    · rw [if_neg hk]
      rw [lookupA, if_neg hk] at h
      simp only [List.map_cons]
      rw [ih k v h]

/-- Assignment to a fresh key appends it to the key list. -/
theorem insertA_keys_fresh {β : Type} : ∀ (l : List (Cell × β)) (k : Cell) (v : β),
    lookupA l k = none → (insertA l k v).map Prod.fst = l.map Prod.fst ++ [k] := by
  intro l
  induction l with
  | nil => intro k v _; simp [insertA]
  | cons p t ih =>
    intro k v h
    obtain ⟨k', w⟩ := p
    rw [lookupA] at h
    by_cases hk : k' = k
    · rw [if_pos hk] at h
      cases h
    · rw [if_neg hk] at h
      rw [insertA, if_neg hk]
      simp only [List.map_cons, List.cons_append]
      rw [ih k v h]

/-- One relaxation preserves the core invariant and advances the
mid-expansion frontier property by the processed offset. -/
theorem relaxOne_inv (ctx : Ctx) (cur : Cell) (curG : ℕ)
    (processed : List (ℤ × ℤ)) (d : ℤ × ℤ) (st st' : AState)
    (hC : InvC ctx st) (hG : GiMid ctx cur curG processed st)
    (hd : d ∈ movements)
    (hcur : ∃ vc, lookupA st.g_scores cur = some vc ∧ vc ≤ curG)
    (hreach : ∃ n, Steps ctx ctx.start cur n)
    (hcurg : curG < st.g_scores.length)
    (h : relaxOne ctx cur curG st d = .ok st') :
    InvC ctx st' ∧ GiMid ctx cur curG (processed ++ [d]) st' := by
  rcases relaxOne_spec ctx cur curG st d st' h with ⟨heq, hwhy⟩ | ⟨hoknb, hfresh, heq⟩
  · -- nothing happened
    subst heq
    refine ⟨hC, ?_⟩
    intro k v hkv
    rcases hG k v hkv with h1 | h2 | ⟨hk, hv, hproc⟩
    · exact Or.inl h1
    · exact Or.inr (Or.inl h2)
    · refine Or.inr (Or.inr ⟨hk, hv, ?_⟩)
      intro d' hd' hok'
      rcases List.mem_append.mp hd' with hd' | hd'
      · exact hproc d' hd' hok'
      · rw [List.mem_singleton] at hd'
        subst hd'
        rcases hwhy with hno | ⟨old, hold, hge⟩
        · exact absurd hok' hno
        · exact ⟨old, hold, by omega⟩
  · -- the neighbor was relaxed
    set nb := cadd cur d with hnb
    have hnbcur : nb ≠ cur := cadd_ne_self cur d hd
    have hnbstart : nb ≠ ctx.start := by
      intro hcon
      have := hfresh 0 (by rw [hcon]; exact hC.start0)
      omega
    obtain ⟨vc, hvc, hvcle⟩ := hcur
    have hvccur : lookupA (relaxed ctx cur curG st nb).g_scores cur = some vc := by
      rw [relaxed]
      exact (lookupA_insertA_ne _ _ _ _ (fun hcc => hnbcur hcc.symm)).trans hvc
    have hlook_nb : lookupA (relaxed ctx cur curG st nb).g_scores nb = some (curG + 1) := by
      rw [relaxed]
      exact lookupA_insertA_self _ _ _
    have hlook_ne : ∀ k, k ≠ nb →
        lookupA (relaxed ctx cur curG st nb).g_scores k = lookupA st.g_scores k := by
      intro k hk
      rw [relaxed]
      exact lookupA_insertA_ne _ _ _ _ hk
    have hlen_le : st.g_scores.length ≤ (relaxed ctx cur curG st nb).g_scores.length := by
      rw [relaxed]
      cases hp : lookupA st.g_scores nb with
      | none => rw [insertA_length_fresh _ _ _ hp]; omega
      | some old => rw [insertA_length_present _ _ _ (by rw [hp]; rfl)]
    have hval_new : curG + 1 < (relaxed ctx cur curG st nb).g_scores.length := by
      rw [relaxed]
      cases hp : lookupA st.g_scores nb with
      | none =>
        rw [insertA_length_fresh _ _ _ hp]
        omega
      | some old =>
        rw [insertA_length_present _ _ _ (by rw [hp]; rfl)]
        exact lt_trans (hfresh old hp) (hC.val_lt nb old hp)
    have hmono : ∀ u vu, lookupA st.g_scores u = some vu →
        ∃ vu', lookupA (relaxed ctx cur curG st nb).g_scores u = some vu' ∧ vu' ≤ vu := by
      intro u vu hu
      by_cases hun : u = nb
      · subst hun
        exact ⟨curG + 1, hlook_nb, le_of_lt (hfresh vu hu)⟩
      · exact ⟨vu, (hlook_ne u hun).trans hu, le_refl vu⟩
    have hmem_new : relaxEntry ctx cur curG nb ∈ (relaxed ctx cur curG st nb).open_set := by
      rw [relaxed]
      exact List.mem_append.mpr (Or.inr (List.mem_singleton.mpr rfl))
    have hmem_old : ∀ e ∈ st.open_set, e ∈ (relaxed ctx cur curG st nb).open_set := by
      intro e he
      rw [relaxed]
      exact List.mem_append.mpr (Or.inl he)
    subst heq
    constructor
    · constructor
      · -- start0
        rw [hlook_ne _ (fun hcc => hnbstart hcc.symm)]
        exact hC.start0
      · -- val_lt
        intro k v hkv
        by_cases hk : k = nb
        · subst hk
          rw [hlook_nb] at hkv
          cases hkv
          exact hval_new
        · rw [hlook_ne k hk] at hkv
          exact lt_of_lt_of_le (hC.val_lt k v hkv) hlen_le
      · -- keys_ok
        intro k hk
        rw [relaxed] at hk
        rcases insertA_keys _ _ _ k hk with hk' | hk'
        · subst hk'
          exact Or.inr hoknb.1
        · exact hC.keys_ok k hk'
      · -- keysND
        rw [relaxed]
        cases hp : lookupA st.g_scores nb with
        | none =>
          rw [insertA_keys_fresh _ _ _ hp]
          rw [List.nodup_append]
          refine ⟨hC.keysND, List.nodup_singleton nb, ?_⟩
          intro x hx hx'
          rw [List.mem_singleton] at hx'
          subst hx'
          have hs : (lookupA st.g_scores nb).isSome :=
            (lookupA_isSome_mem st.g_scores nb).mpr hx
          rw [hp] at hs
          cases hs
        | some old =>
          rw [insertA_keys_present _ _ _ (by rw [hp]; rfl)]
          exact hC.keysND
      · -- open_g_lt
        intro e he
        rw [relaxed] at he
        rcases List.mem_append.mp he with he | he
        · exact lt_of_lt_of_le (hC.open_g_lt e he) hlen_le
        · rw [List.mem_singleton] at he
          subst he
          rw [relaxEntry]
          exact hval_new
      · -- open_form
        intro e he
        rw [relaxed] at he
        rcases List.mem_append.mp he with he | he
        · exact hC.open_form e he
        · rw [List.mem_singleton] at he
          subst he
          rw [relaxEntry]
          exact Or.inl ⟨rfl, rfl⟩
      · -- open_node_g
        intro e he
        rw [relaxed] at he
        rcases List.mem_append.mp he with he | he
        · obtain ⟨v, hv, hvle⟩ := hC.open_node_g e he
          obtain ⟨v', hv', hv'le⟩ := hmono e.node v hv
          exact ⟨v', hv', le_trans hv'le hvle⟩
        · rw [List.mem_singleton] at he
          subst he
          rw [relaxEntry]
          exact ⟨curG + 1, hlook_nb, le_refl _⟩
      · -- open_reach
        intro e he
        rw [relaxed] at he
        rcases List.mem_append.mp he with he | he
        · exact hC.open_reach e he
        · rw [List.mem_singleton] at he
          subst he
          obtain ⟨n, hn⟩ := hreach
          exact ⟨n + 1, Steps.tail d hd hn hoknb⟩
      · -- par_keys
        intro k
        by_cases hk : k = nb
        · subst hk
          rw [relaxed]
          constructor
          · intro _
            refine ⟨?_, hnbstart⟩
            rw [show (relaxed ctx cur curG st nb).g_scores
                  = insertA st.g_scores nb (curG + 1) from rfl] at hlook_nb
            rw [hlook_nb]
            rfl
          · intro _
            rw [lookupA_insertA_self]
            rfl
        · have hpk : lookupA (insertA st.parents nb cur) k = lookupA st.parents k :=
            lookupA_insertA_ne _ _ _ _ hk
          rw [relaxed]
          simp only
          rw [hpk, lookupA_insertA_ne _ _ _ _ hk]
          exact hC.par_keys k
      · -- par_len
        rw [relaxed]
        simp only
        cases hp : lookupA st.g_scores nb with
        | none =>
          have hpp : lookupA st.parents nb = none := by
            cases hq : lookupA st.parents nb with
            | none => rfl
            | some x =>
              have := (hC.par_keys nb).mp (by rw [hq]; rfl)
              rw [hp] at this
              cases this.1
          rw [insertA_length_fresh st.g_scores nb (curG + 1) hp,
            insertA_length_fresh st.parents nb cur hpp]
          rw [← hC.par_len]
        | some old =>
          have hpp : (lookupA st.parents nb).isSome := by
            rw [hC.par_keys nb]
            exact ⟨by rw [hp]; rfl, hnbstart⟩
          rw [insertA_length_present st.g_scores nb (curG + 1) (by rw [hp]; rfl),
            insertA_length_present st.parents nb cur hpp]
          exact hC.par_len
      · -- par_adj
        intro k p hkp
        rw [relaxed] at hkp
        simp only at hkp
        by_cases hk : k = nb
        · subst hk
          rw [lookupA_insertA_self] at hkp
          cases hkp
          exact ⟨⟨d, hd, rfl⟩, hoknb⟩
        · rw [lookupA_insertA_ne _ _ _ _ hk] at hkp
          exact hC.par_adj k p hkp
      · -- par_dec
        intro k p hkp
        rw [relaxed] at hkp
        simp only at hkp
        by_cases hk : k = nb
        · subst hk
          rw [lookupA_insertA_self] at hkp
          cases hkp
          exact ⟨curG + 1, vc, hlook_nb, hvccur, by omega⟩
        · rw [lookupA_insertA_ne _ _ _ _ hk] at hkp
          obtain ⟨vk, vp, hvk, hvp, hlt⟩ := hC.par_dec k p hkp
          by_cases hpn : p = nb
          · subst hpn
            have h1 := hfresh vp hvp
            exact ⟨vk, curG + 1, (hlook_ne k hk).trans hvk, hlook_nb, by omega⟩
          · exact ⟨vk, vp, (hlook_ne k hk).trans hvk, (hlook_ne p hpn).trans hvp, hlt⟩
      · -- ge
        intro v hv
        by_cases hk : ctx.endc = nb
        · rw [hk, hlook_nb] at hv
          cases hv
          refine ⟨relaxEntry ctx cur curG nb, hmem_new, ?_, rfl⟩
          rw [relaxEntry, hk]
        · rw [hlook_ne _ hk] at hv
          obtain ⟨e, he, hen, heg⟩ := hC.ge v hv
          exact ⟨e, hmem_old e he, hen, heg⟩
    · -- GiMid with the new offset processed
      intro k v hkv
      by_cases hk : k = nb
      · subst hk
        rw [hlook_nb] at hkv
        cases hkv
        left
        exact ⟨relaxEntry ctx cur curG nb, hmem_new, rfl, rfl⟩
      · rw [hlook_ne k hk] at hkv
        rcases hG k v hkv with h1 | h2 | ⟨hkc, hvc2, hproc⟩
        · obtain ⟨e, he, hen, heg⟩ := h1
          exact Or.inl ⟨e, hmem_old e he, hen, heg⟩
        · refine Or.inr (Or.inl ?_)
          intro u hadj hok
          obtain ⟨vu, hvu, hvule⟩ := h2 u hadj hok
          obtain ⟨vu', hvu', hvu'le⟩ := hmono u vu hvu
          exact ⟨vu', hvu', le_trans hvu'le hvule⟩
        · refine Or.inr (Or.inr ⟨hkc, hvc2, ?_⟩)
          intro d' hd' hok'
          rcases List.mem_append.mp hd' with hd' | hd'
          · obtain ⟨vu, hvu, hvule⟩ := hproc d' hd' hok'
            obtain ⟨vu', hvu', hvu'le⟩ := hmono (cadd cur d') vu hvu
            exact ⟨vu', hvu', le_trans hvu'le hvule⟩
          · rw [List.mem_singleton] at hd'
            subst hd'
            refine ⟨curG + 1, hlook_nb, ?_⟩
            omega

/-- A successful relaxation never shrinks the cost dict. -/
theorem relaxOne_len_mono (ctx : Ctx) (cur : Cell) (curG : ℕ) (st : AState)
    (d : ℤ × ℤ) (st' : AState) (h : relaxOne ctx cur curG st d = .ok st') :
    st.g_scores.length ≤ st'.g_scores.length := by
  rcases relaxOne_spec ctx cur curG st d st' h with ⟨heq, _⟩ | ⟨_, _, heq⟩
  · rw [heq]
  · subst heq
    rw [relaxed]
    cases hp : lookupA st.g_scores (cadd cur d) with
    | none => rw [insertA_length_fresh _ _ _ hp]; omega
    | some old => rw [insertA_length_present _ _ _ (by rw [hp]; rfl)]

/-- A relaxation never touches the recorded cost of the expanded cell. -/
theorem relaxOne_cur_lookup (ctx : Ctx) (cur : Cell) (curG : ℕ) (st : AState)
    (d : ℤ × ℤ) (st' : AState) (hd : d ∈ movements)
    (h : relaxOne ctx cur curG st d = .ok st') :
    lookupA st'.g_scores cur = lookupA st.g_scores cur := by
  rcases relaxOne_spec ctx cur curG st d st' h with ⟨heq, _⟩ | ⟨_, _, heq⟩
  · rw [heq]
  · subst heq
    rw [relaxed]
    exact lookupA_insertA_ne _ _ _ _ (fun hcc => cadd_ne_self cur d hd hcc.symm)

/-- Folding relaxations over a list of offsets preserves the invariant
pieces. -/
theorem relaxList_inv (ctx : Ctx) (cur : Cell) (curG : ℕ) :
    ∀ (rem processed : List (ℤ × ℤ)) (st st' : AState),
    (∀ d ∈ rem, d ∈ movements) →
    InvC ctx st → GiMid ctx cur curG processed st →
    (∃ vc, lookupA st.g_scores cur = some vc ∧ vc ≤ curG) →
    (∃ n, Steps ctx ctx.start cur n) →
    curG < st.g_scores.length →
    rem.foldlM (relaxOne ctx cur curG) st = .ok st' →
    InvC ctx st' ∧ GiMid ctx cur curG (processed ++ rem) st' := by
  intro rem
  induction rem with
  | nil =>
    intro processed st st' _ hC hG _ _ _ hfold
    rw [List.foldlM_nil] at hfold
    cases hfold
    rw [List.append_nil]
    exact ⟨hC, hG⟩
  | cons d rem' ih =>
    intro processed st st' hmem hC hG hcur hreach hcurg hfold
    rw [List.foldlM_cons] at hfold
    cases h1 : relaxOne ctx cur curG st d with
    | error e =>
      rw [h1] at hfold
      cases hfold
    | ok st1 =>
      rw [h1] at hfold
      have hstep := relaxOne_inv ctx cur curG processed d st st1 hC hG
        (hmem d (List.mem_cons_self d rem')) hcur hreach hcurg h1
      have hcur1 : ∃ vc, lookupA st1.g_scores cur = some vc ∧ vc ≤ curG := by
        obtain ⟨vc, hvc, hvcle⟩ := hcur
        refine ⟨vc, ?_, hvcle⟩
        rw [relaxOne_cur_lookup ctx cur curG st d st1
          (hmem d (List.mem_cons_self d rem')) h1]
        exact hvc
      have hcurg1 : curG < st1.g_scores.length :=
        lt_of_lt_of_le hcurg (relaxOne_len_mono ctx cur curG st d st1 h1)
      have hres := ih (processed ++ [d]) st1 st'
        (fun d' hd' => hmem d' (List.mem_cons_of_mem d hd'))
        hstep.1 hstep.2 hcur1 hreach hcurg1 hfold
      rw [List.append_assoc] at hres
      simpa using hres

/-- The fully processed frontier property gives back `Gi`. -/
theorem giMid_full (ctx : Ctx) (cur : Cell) (curG : ℕ) (st : AState)
    (h : GiMid ctx cur curG movements st) : Gi ctx st := by
  intro k v hkv
  rcases h k v hkv with h1 | h2 | ⟨hk, hv, hproc⟩
  · exact Or.inl h1
  · exact Or.inr h2
  · refine Or.inr ?_
    intro u hadj hok
    obtain ⟨d, hd, hu⟩ := hadj
    subst hu
    subst hk
    exact hproc d hd hok

/-- Popping the minimal tuple (with a non-goal node) preserves the core
invariant and establishes the empty-progress frontier property for the
popped pair. -/
theorem pop_inv (ctx : Ctx) (st : AState) (e0 : Entry) (rest : List Entry)
    (hI : SInv ctx st)
    (hne : (minF e0 rest).node ≠ ctx.endc) :
    InvC ctx { st with open_set := erase1 st.open_set (minF e0 rest) } ∧
      GiMid ctx (minF e0 rest).node (minF e0 rest).g []
        { st with open_set := erase1 st.open_set (minF e0 rest) } := by
  obtain ⟨hC, hG⟩ := hI
  set m := minF e0 rest with hm
  have hsub : ∀ e ∈ erase1 st.open_set m, e ∈ st.open_set :=
    erase1_subset m st.open_set
  constructor
  · constructor
    · exact hC.start0
    · exact hC.val_lt
    · exact hC.keys_ok
    · exact hC.keysND
    · intro e he
      exact hC.open_g_lt e (hsub e he)
    · intro e he
      exact hC.open_form e (hsub e he)
    · intro e he
      exact hC.open_node_g e (hsub e he)
    · intro e he
      exact hC.open_reach e (hsub e he)
    · exact hC.par_keys
    · exact hC.par_len
    · exact hC.par_adj
    · exact hC.par_dec
    · intro v hv
      obtain ⟨e, he, hen, heg⟩ := hC.ge v hv
      refine ⟨e, ?_, hen, heg⟩
      have hem : e ≠ m := by
        intro hcon
        rw [hcon] at hen
        exact hne hen
      exact mem_erase1_of_ne he hem
  · intro k v hkv
    rcases hG k v hkv with ⟨e, he, hen, heg⟩ | h2
    · by_cases hem : e = m
      · subst hem
        exact Or.inr (Or.inr ⟨hen.symm, heg.symm,
          fun d hd => absurd hd (List.not_mem_nil d)⟩)
      · exact Or.inl ⟨e, mem_erase1_of_ne he hem, hen, heg⟩
    · exact Or.inr (Or.inl h2)

/-- One full loop iteration that continues the search preserves the
invariant. -/
theorem stepA_stepped_inv (ctx : Ctx) (st st2 : AState)
    (hI : SInv ctx st) (h : stepA ctx st = .stepped st2) : SInv ctx st2 := by
  rw [stepA] at h
  split at h
  · cases h
  · rename_i e0 rest hopen
    split at h
    · rename_i hgoal
      split at h
      · cases h
      · cases h
    · rename_i hgoal
      split at h
      · cases h
      · rename_i st2' hra
        cases h
        set m := minF e0 rest with hm
        have hmem : m ∈ st.open_set := by
          rw [hopen]
          exact minF_mem e0 rest
        have hpop := pop_inv ctx st e0 rest hI hgoal
        have hcur : ∃ vc, lookupA st.g_scores m.node = some vc ∧ vc ≤ m.g :=
          hI.1.open_node_g m hmem
        have hreach : ∃ n, Steps ctx ctx.start m.node n :=
          hI.1.open_reach m hmem
        have hcurg : m.g < st.g_scores.length := hI.1.open_g_lt m hmem
        have hres := relaxList_inv ctx m.node m.g movements []
          { st with open_set := erase1 st.open_set m } st2
          (fun d hd => hd) hpop.1 hpop.2 hcur hreach hcurg hra
        rw [List.nil_append] at hres
        exact ⟨hres.1, giMid_full ctx m.node m.g st2 hres.2⟩

/-- The adjacency relation along a returned path: each cell is the
previous one shifted by a movement offset. -/
def StepRel (a b : Cell) : Prop := ∃ d ∈ movements, b = cadd a d

/-- The predecessor walk succeeds and produces a chain from the start,
provided the walked-from cell has a recorded cost below the fuel. -/
theorem walkBack_spec (ctx : Ctx) (st : AState) (hC : InvC ctx st) :
    ∀ (fuel : ℕ) (cur : Cell) (v : ℕ),
    lookupA st.g_scores cur = some v → v < fuel →
    ∃ w, walkBack st.parents fuel cur = some w ∧ w.length ≤ v ∧
      Steps ctx ctx.start cur w.length ∧
      (ctx.start :: w.reverse).getLast? = some cur ∧
      List.Chain' StepRel (ctx.start :: w.reverse) ∧
      (∀ c ∈ w, OkCell ctx c) := by
  intro fuel
  induction fuel with
  | zero =>
    intro cur v hv hlt
    omega
  | succ f ih =>
    intro cur v hv hlt
    cases hpar : lookupA st.parents cur with
    | none =>
      have hcs : cur = ctx.start := by
        have hiff := hC.par_keys cur
        rw [hpar] at hiff
        by_contra hne
        have : (some v).isSome = true ∧ cur ≠ ctx.start := ⟨rfl, hne⟩
        rw [← hv] at this
        have := hiff.mpr this
        cases this
      refine ⟨[], ?_, ?_, ?_, ?_, ?_, ?_⟩
      · rw [walkBack, hpar]
      · simp
      · rw [hcs]
        exact Steps.refl ctx.start
      · simp [hcs]
      · simp
      · intro c hc
        cases hc
    | some pa =>
      obtain ⟨vk, vp, hvk, hvp, hdec⟩ := hC.par_dec cur pa hpar
      have hvkv : vk = v := by
        rw [hv] at hvk
        cases hvk
        rfl
      subst hvkv
      have hvpf : vp < f := by omega
      obtain ⟨w', hw', hlen', hsteps', hlast', hchain', hmem'⟩ := ih pa vp hvp hvpf
      obtain ⟨hadj, hok⟩ := hC.par_adj cur pa hpar
      have hsplit : ctx.start :: (cur :: w').reverse
          = (ctx.start :: w'.reverse) ++ [cur] := by
        simp
      refine ⟨cur :: w', ?_, ?_, ?_, ?_, ?_, ?_⟩
      · rw [walkBack, hpar]
        show (walkBack st.parents f pa).map (fun w => cur :: w) = some (cur :: w')
        rw [hw']
        rfl
      · simp only [List.length_cons]
        omega
      · obtain ⟨d, hd, hcd⟩ := hadj
        rw [hcd] at hok ⊢
        simp only [List.length_cons]
        exact Steps.tail d hd hsteps' hok
      · rw [hsplit, List.getLast?_concat]
      · rw [hsplit, List.chain'_append]
        refine ⟨hchain', List.chain'_singleton cur, ?_⟩
        intro x hx y hy
        rw [hlast'] at hx
        cases hx
        rw [List.head?_cons] at hy
        cases hy
        exact hadj
      · intro c hc
        rcases List.mem_cons.mp hc with hc | hc
        · rw [hc]
          exact hok
        · exact hmem' c hc

/-- Specification of the success branch of one loop iteration. -/
theorem stepA_found_spec (ctx : Ctx) (st : AState) (p : List Cell)
    (hI : SInv ctx st) (h : stepA ctx st = .found p) :
    ∃ e0 rest, st.open_set = e0 :: rest ∧ (minF e0 rest).node = ctx.endc ∧
      p.head? = some ctx.start ∧ p.getLast? = some ctx.endc ∧
      List.Chain' StepRel p ∧
      (∀ c ∈ p, c = ctx.start ∨ OkCell ctx c) ∧
      Steps ctx ctx.start ctx.endc (p.length - 1) ∧
      p.length - 1 ≤ (minF e0 rest).g ∧ p ≠ [] := by
  rw [stepA] at h
  split at h
  · cases h
  · rename_i e0 rest hopen
    split at h
    · rename_i hgoal
      have hmem : minF e0 rest ∈ st.open_set := by
        rw [hopen]
        exact minF_mem e0 rest
      obtain ⟨v, hv, hvle⟩ := hI.1.open_node_g (minF e0 rest) hmem
      have hvlt : v < st.parents.length + 1 := by
        have h1 := hI.1.val_lt (minF e0 rest).node v hv
        have h2 := hI.1.par_len
        omega
      obtain ⟨w, hw, hlen, hsteps, hlast, hchain, hmemw⟩ :=
        walkBack_spec ctx st hI.1 (st.parents.length + 1) (minF e0 rest).node v hv hvlt
      rw [hw] at h
      cases h
      have hrev : ((w ++ [ctx.start]).reverse) = ctx.start :: w.reverse := by
        simp
      refine ⟨e0, rest, hopen, hgoal, ?_, ?_, ?_, ?_, ?_, ?_, ?_⟩
      · rw [hrev]
        rfl
      · rw [hrev, ← hgoal]
        exact hlast
      · rw [hrev]
        exact hchain
      · rw [hrev]
        intro c hc
        rcases List.mem_cons.mp hc with hc | hc
        · exact Or.inl hc
        · exact Or.inr (hmemw c (List.mem_reverse.mp hc))
      · rw [hrev]
        simp only [List.length_cons, List.length_reverse, Nat.add_sub_cancel]
        rw [← hgoal]
        exact hsteps
      · rw [hrev]
        simp only [List.length_cons, List.length_reverse, Nat.add_sub_cancel]
        omega
      · rw [hrev]
        intro hcon
        cases hcon
    · split at h
      · cases h
      · cases h

/-- Under the invariant the reconstruction loop always terminates within
its fuel: the `stuck` outcome is unreachable. -/
theorem stepA_not_stuck (ctx : Ctx) (st : AState) (hI : SInv ctx st) :
    stepA ctx st ≠ .stuck := by
  intro h
  rw [stepA] at h
  split at h
  · cases h
  · rename_i e0 rest hopen
    split at h
    · rename_i hgoal
      have hmem : minF e0 rest ∈ st.open_set := by
        rw [hopen]
        exact minF_mem e0 rest
      obtain ⟨v, hv, hvle⟩ := hI.1.open_node_g (minF e0 rest) hmem
      have hvlt : v < st.parents.length + 1 := by
        have h1 := hI.1.val_lt (minF e0 rest).node v hv
        have h2 := hI.1.par_len
        omega
      obtain ⟨w, hw, -⟩ :=
        walkBack_spec ctx st hI.1 (st.parents.length + 1) (minF e0 rest).node v hv hvlt
      rw [hw] at h
      cases h
    · split at h
      · cases h
      · cases h

/-! ### Termination measure -/

/-- All cells that can ever obtain a recorded cost: the in-bounds cells
plus the (possibly out-of-bounds) start cell. -/
def domD (ctx : Ctx) : Finset Cell :=
  (Finset.Icc (0 : ℤ) ((ctx.COL : ℤ) - 1) ×ˢ Finset.Icc (0 : ℤ) ((ctx.ROW : ℤ) - 1))
    ∪ {ctx.start}

/-- Default summand, strictly above every recordable cost. -/
def bigB (ctx : Ctx) : ℕ := ctx.COL * ctx.ROW + 3

/-- Potential: total recorded (or default) cost over the domain. -/
def phiM (ctx : Ctx) (st : AState) : ℕ :=
  (domD ctx).sum (fun c => (lookupA st.g_scores c).getD (bigB ctx))

/-- The loop measure: five times the potential plus the open-set size. -/
def measureM (ctx : Ctx) (st : AState) : ℕ :=
  5 * phiM ctx st + st.open_set.length

theorem card_domD (ctx : Ctx) : (domD ctx).card ≤ ctx.COL * ctx.ROW + 1 := by
  rw [domD]
  refine le_trans (Finset.card_union_le _ _) ?_
  rw [Finset.card_singleton, Finset.card_product]
  have h1 : (Finset.Icc (0 : ℤ) ((ctx.COL : ℤ) - 1)).card = ctx.COL := by
    rw [Int.card_Icc]
    simp
  have h2 : (Finset.Icc (0 : ℤ) ((ctx.ROW : ℤ) - 1)).card = ctx.ROW := by
    rw [Int.card_Icc]
    simp
  rw [h1, h2]

/-- An in-bounds cell belongs to the domain. -/
theorem inB_mem_domD (ctx : Ctx) (c : Cell) (h : inB ctx c = true) : c ∈ domD ctx := by
  rw [inB] at h
  simp only [Bool.and_eq_true, decide_eq_true_eq] at h
  rw [domD, Finset.mem_union, Finset.mem_product]
  left
  refine ⟨Finset.mem_Icc.mpr ⟨h.1.1.1, by omega⟩, Finset.mem_Icc.mpr ⟨h.1.2, by omega⟩⟩

/-- The start cell belongs to the domain. -/
theorem start_mem_domD (ctx : Ctx) : ctx.start ∈ domD ctx := by
  rw [domD, Finset.mem_union]
  right
  exact Finset.mem_singleton_self ctx.start

/-- Under the invariant the cost dict never exceeds the domain size. -/
theorem glen_le (ctx : Ctx) (st : AState) (hC : InvC ctx st) :
    st.g_scores.length ≤ ctx.COL * ctx.ROW + 1 := by
  have hlen : st.g_scores.length = (st.g_scores.map Prod.fst).length := by
    rw [List.length_map]
  rw [hlen]
  have hnd := hC.keysND
  have hsub : ∀ k ∈ st.g_scores.map Prod.fst, k ∈ domD ctx := by
    intro k hk
    rcases hC.keys_ok k hk with h | h
    · rw [h]
      exact start_mem_domD ctx
    · exact inB_mem_domD ctx k h
  calc (st.g_scores.map Prod.fst).length
      = (st.g_scores.map Prod.fst).toFinset.card := (List.toFinset_card_of_nodup hnd).symm
    _ ≤ (domD ctx).card := by
        refine Finset.card_le_card ?_
        intro x hx
        exact hsub x (List.mem_toFinset.mp hx)
    _ ≤ ctx.COL * ctx.ROW + 1 := card_domD ctx

/-- An updating relaxation strictly decreases the potential. -/
theorem relaxed_phi (ctx : Ctx) (cur : Cell) (curG : ℕ) (st : AState) (nb : Cell)
    (hmem : nb ∈ domD ctx)
    (hBnd : curG + 1 < (lookupA st.g_scores nb).getD (bigB ctx)) :
    phiM ctx (relaxed ctx cur curG st nb) + 1 ≤ phiM ctx st := by
  have hsplit : ∀ (g : List (Cell × ℕ)),
      (domD ctx).sum (fun c => (lookupA g c).getD (bigB ctx))
        = (lookupA g nb).getD (bigB ctx)
          + ((domD ctx).erase nb).sum (fun c => (lookupA g c).getD (bigB ctx)) := by
    intro g
    exact (Finset.add_sum_erase (domD ctx) _ hmem).symm
  have hsame : ((domD ctx).erase nb).sum
        (fun c => (lookupA (relaxed ctx cur curG st nb).g_scores c).getD (bigB ctx))
      = ((domD ctx).erase nb).sum (fun c => (lookupA st.g_scores c).getD (bigB ctx)) := by
    refine Finset.sum_congr rfl ?_
    intro x hx
    have hxne : x ≠ nb := Finset.ne_of_mem_erase hx
    rw [relaxed]
    rw [lookupA_insertA_ne _ _ _ _ hxne]
  rw [phiM, hsplit, phiM, hsplit, hsame]
  have hnb : lookupA (relaxed ctx cur curG st nb).g_scores nb = some (curG + 1) := by
    rw [relaxed]
    exact lookupA_insertA_self _ _ _
  rw [hnb]
  simp only [Option.getD_some]
  omega

/-- One relaxation never increases the measure, and decreases it by at
least four when it changes the state. -/
theorem relaxOne_measure (ctx : Ctx) (cur : Cell) (curG : ℕ) (st : AState)
    (d : ℤ × ℤ) (st' : AState) (hB : curG + 1 < bigB ctx)
    (h : relaxOne ctx cur curG st d = .ok st') :
    measureM ctx st' ≤ measureM ctx st := by
  rcases relaxOne_spec ctx cur curG st d st' h with ⟨heq, _⟩ | ⟨hok, hfresh, heq⟩
  · rw [heq]
  · subst heq
    have hmem : cadd cur d ∈ domD ctx := inB_mem_domD ctx _ hok.1
    have hBnd : curG + 1 < (lookupA st.g_scores (cadd cur d)).getD (bigB ctx) := by
      cases hp : lookupA st.g_scores (cadd cur d) with
      | none => simpa using hB
      | some old => simpa using hfresh old hp
    have hphi := relaxed_phi ctx cur curG st (cadd cur d) hmem hBnd
    rw [measureM, measureM]
    have hopen : (relaxed ctx cur curG st (cadd cur d)).open_set.length
        = st.open_set.length + 1 := by
      rw [relaxed]
      simp
    rw [hopen]
    omega

/-- Folding relaxations never increases the measure. -/
theorem relaxList_measure (ctx : Ctx) (cur : Cell) (curG : ℕ)
    (hB : curG + 1 < bigB ctx) :
    ∀ (rem : List (ℤ × ℤ)) (st st' : AState),
    rem.foldlM (relaxOne ctx cur curG) st = .ok st' →
    measureM ctx st' ≤ measureM ctx st := by
  intro rem
  induction rem with
  | nil =>
    intro st st' hfold
    rw [List.foldlM_nil] at hfold
    cases hfold
    exact le_refl _
  | cons d rem' ih =>
    intro st st' hfold
    rw [List.foldlM_cons] at hfold
    cases h1 : relaxOne ctx cur curG st d with
    | error e =>
      rw [h1] at hfold
      cases hfold
    | ok st1 =>
      rw [h1] at hfold
      exact le_trans (ih st1 st' hfold) (relaxOne_measure ctx cur curG st d st1 hB h1)

/-- A continuing loop iteration strictly decreases the measure. -/
theorem stepA_measure (ctx : Ctx) (st st2 : AState)
    (hI : SInv ctx st) (h : stepA ctx st = .stepped st2) :
    measureM ctx st2 < measureM ctx st := by
  rw [stepA] at h
  split at h
  · cases h
  · rename_i e0 rest hopen
    split at h
    · split at h
      · cases h
      · cases h
    · split at h
      · cases h
      · rename_i st2' hra
        cases h
        have hmem : minF e0 rest ∈ st.open_set := by
          rw [hopen]
          exact minF_mem e0 rest
        have hB : (minF e0 rest).g + 1 < bigB ctx := by
          have h1 := hI.1.open_g_lt (minF e0 rest) hmem
          have h2 := glen_le ctx st hI.1
          rw [bigB]
          omega
        have hfold := relaxList_measure ctx (minF e0 rest).node (minF e0 rest).g hB
          movements { st with open_set := erase1 st.open_set (minF e0 rest) } st2 hra
        have hlen := erase1_length hmem
        have hphieq : phiM ctx { st with open_set := erase1 st.open_set (minF e0 rest) }
            = phiM ctx st := rfl
        rw [measureM, measureM, hphieq] at hfold
        rw [measureM, measureM]
        simp only at hfold ⊢
        omega

/-! ### Loop-level results -/

/-- A rectangular grid: every row has length `ROW`. -/
def Rect (ctx : Ctx) : Prop := ∀ row ∈ ctx.grid, row.length = ctx.ROW

/-- On a rectangular grid every in-bounds access yields a value. -/
theorem cellAt_isSome (ctx : Ctx) (hrect : Rect ctx) (c : Cell)
    (hb : inB ctx c = true) : ∃ v, cellAt ctx c = some v := by
  rw [inB] at hb
  simp only [Bool.and_eq_true, decide_eq_true_eq] at hb
  obtain ⟨⟨⟨h1, h2⟩, h3⟩, h4⟩ := hb
  have hlt1 : c.1.toNat < ctx.grid.length := by
    rw [Ctx.COL] at h2
    omega
  have hget : ctx.grid.getD c.1.toNat [] = ctx.grid.get ⟨c.1.toNat, hlt1⟩ := by
    rw [List.getD_eq_getD_get?, List.get?_eq_get hlt1]
    rfl
  have hmem : ctx.grid.get ⟨c.1.toNat, hlt1⟩ ∈ ctx.grid := ctx.grid.get_mem _ _
  have hlen : (ctx.grid.get ⟨c.1.toNat, hlt1⟩).length = ctx.ROW := hrect _ hmem
  have hlt2 : c.2.toNat < (ctx.grid.get ⟨c.1.toNat, hlt1⟩).length := by
    rw [hlen]
    omega
  rw [cellAt, hget]
  rw [List.get?_eq_get hlt2]
  exact ⟨_, rfl⟩

/-- On a rectangular grid a relaxation cannot fail. -/
theorem relaxOne_no_error (ctx : Ctx) (hrect : Rect ctx) (cur : Cell) (curG : ℕ)
    (st : AState) (d : ℤ × ℤ) (e : PyErr) :
    relaxOne ctx cur curG st d ≠ .error e := by
  intro h
  obtain ⟨hb, hc⟩ := relaxOne_error ctx cur curG st d e h
  obtain ⟨v, hv⟩ := cellAt_isSome ctx hrect (cadd cur d) hb
  rw [hv] at hc
  cases hc

/-- On a rectangular grid the whole expansion cannot fail. -/
theorem relaxList_no_error (ctx : Ctx) (hrect : Rect ctx) (cur : Cell) (curG : ℕ) :
    ∀ (rem : List (ℤ × ℤ)) (st : AState) (e : PyErr),
    rem.foldlM (relaxOne ctx cur curG) st ≠ .error e := by
  intro rem
  induction rem with
  | nil =>
    intro st e h
    rw [List.foldlM_nil] at h
    cases h
  | cons d rem' ih =>
    intro st e h
    rw [List.foldlM_cons] at h
    cases h1 : relaxOne ctx cur curG st d with
    | error e' =>
      exact relaxOne_no_error ctx hrect cur curG st d e' h1
    | ok st1 =>
      rw [h1] at h
      exact ih st1 e h

/-- On a rectangular grid a loop iteration cannot fail. -/
theorem stepA_no_failed (ctx : Ctx) (hrect : Rect ctx) (st : AState) (e : PyErr) :
    stepA ctx st ≠ .failed e := by
  intro h
  rw [stepA] at h
  split at h
  · cases h
  · rename_i e0 rest hopen
    split at h
    · split at h
      · cases h
      · cases h
    · split at h
      · rename_i hra
        cases h
        exact relaxList_no_error ctx hrect (minF e0 rest).node (minF e0 rest).g
          movements _ e hra
      · cases h

/-- With fuel above the measure the loop never times out. -/
theorem loopA_no_timeout (ctx : Ctx) :
    ∀ (fuel : ℕ) (st : AState), SInv ctx st → measureM ctx st < fuel →
    loopA ctx fuel st ≠ .timeout := by
  intro fuel
  induction fuel with
  | zero =>
    intro st _ hm
    omega
  | succ f ih =>
    intro st hI hm
    cases hstep : stepA ctx st with
    | exhausted => simp [loopA, hstep]
    | found p => simp [loopA, hstep]
    | stuck => exact absurd hstep (stepA_not_stuck ctx st hI)
    | failed e => simp [loopA, hstep]
    | stepped st2 =>
      have hI2 := stepA_stepped_inv ctx st st2 hI hstep
      have hm2 := stepA_measure ctx st st2 hI hstep
      have : loopA ctx (f + 1) st = loopA ctx f st2 := by
        simp [loopA, hstep]
      rw [this]
      exact ih st2 hI2 (by omega)

/-- With fuel above the measure, on a rectangular grid, the loop returns
normally. -/
theorem loopA_ok (ctx : Ctx) (hrect : Rect ctx) :
    ∀ (fuel : ℕ) (st : AState), SInv ctx st → measureM ctx st < fuel →
    ∃ p ev, loopA ctx fuel st = .ok p ev := by
  intro fuel
  induction fuel with
  | zero =>
    intro st _ hm
    omega
  | succ f ih =>
    intro st hI hm
    cases hstep : stepA ctx st with
    | exhausted =>
      refine ⟨[], [.report .noPathFound], ?_⟩
      simp [loopA, hstep]
    | found p =>
      refine ⟨p, [.printed p, .report .pathFound], ?_⟩
      simp [loopA, hstep]
    | stuck => exact absurd hstep (stepA_not_stuck ctx st hI)
    | failed e => exact absurd hstep (stepA_no_failed ctx hrect st e)
    | stepped st2 =>
      have hI2 := stepA_stepped_inv ctx st st2 hI hstep
      have hm2 := stepA_measure ctx st st2 hI hstep
      obtain ⟨p, ev, hok⟩ := ih st2 hI2 (by omega)
      refine ⟨p, ev, ?_⟩
      rw [show loopA ctx (f + 1) st = loopA ctx f st2 by simp [loopA, hstep]]
      exact hok

/-- The initial measure is below the fuel supplied by `do_a_star`. -/
theorem measure_init_lt (ctx : Ctx) :
    measureM ctx (initState ctx.start) < loopFuel ctx := by
  have hphi : phiM ctx (initState ctx.start)
      ≤ bigB ctx * (ctx.COL * ctx.ROW) := by
    rw [phiM]
    rw [← Finset.add_sum_erase (domD ctx) _ (start_mem_domD ctx)]
    have hstart : (lookupA (initState ctx.start).g_scores ctx.start).getD (bigB ctx) = 0 := by
      rw [initState]
      rw [show lookupA [(ctx.start, 0)] ctx.start = some 0 by rw [lookupA, if_pos rfl]]
      rfl
    rw [hstart, zero_add]
    have hconst : ∀ c ∈ (domD ctx).erase ctx.start,
        (lookupA (initState ctx.start).g_scores c).getD (bigB ctx) = bigB ctx := by
      intro c hc
      have hne : c ≠ ctx.start := Finset.ne_of_mem_erase hc
      rw [initState]
      rw [show lookupA [(ctx.start, 0)] c = none by
        rw [lookupA, if_neg (fun h => hne h.symm), lookupA]]
      rfl
    rw [Finset.sum_congr rfl hconst, Finset.sum_const, smul_eq_mul]
    have hcard : ((domD ctx).erase ctx.start).card ≤ ctx.COL * ctx.ROW := by
      have h1 := Finset.card_erase_of_mem (start_mem_domD ctx)
      have h2 := card_domD ctx
      omega
    rw [mul_comm]
    exact Nat.mul_le_mul_left _ hcard
  rw [measureM, loopFuel]
  have hlen : (initState ctx.start).open_set.length = 1 := rfl
  rw [hlen]
  have h5 : 5 * phiM ctx (initState ctx.start) ≤ 5 * (bigB ctx * (ctx.COL * ctx.ROW)) :=
    Nat.mul_le_mul_left _ hphi
  have heq : 5 * (bigB ctx * (ctx.COL * ctx.ROW))
      = 5 * (ctx.COL * ctx.ROW + 3) * (ctx.COL * ctx.ROW) := by
    rw [bigB]
    ring
  omega

/-! ### Frontier bound and master lemmas -/

/-- Frontier covering: any walk from a recorded cell either ends in a cell
whose recorded cost respects the walk, or crosses an open tuple whose cost
plus remaining steps respects it. -/
theorem frontier_bound (ctx : Ctx) (st : AState) (hI : SInv ctx st) :
    ∀ (z : Cell) (m : ℕ) (w : Cell) (v : ℕ),
    lookupA st.g_scores w = some v → Steps ctx w z m →
    (∃ vz, lookupA st.g_scores z = some vz ∧ vz ≤ v + m) ∨
    (∃ e ∈ st.open_set, ∃ r, Steps ctx e.node z r ∧ e.g + r ≤ v + m) := by
  intro z m w v hv hsteps
  induction hsteps with
  | refl => exact Or.inl ⟨v, hv, by omega⟩
  | tail d hd hs hok ih =>
    rename_i b n
    rcases ih with ⟨vb, hvb, hvble⟩ | ⟨e, he, r, hr, hrle⟩
    · rcases hI.2 b vb hvb with ⟨e, he, hen, heg⟩ | hnbrs
      · refine Or.inr ⟨e, he, 1, ?_, ?_⟩
        · rw [hen]
          exact Steps.tail d hd (Steps.refl b) hok
        · omega
      · obtain ⟨vu, hvu, hvule⟩ := hnbrs (cadd b d) ⟨d, hd, rfl⟩ hok
        exact Or.inl ⟨vu, hvu, by omega⟩
    · exact Or.inr ⟨e, he, r + 1, Steps.tail d hd hr hok, by omega⟩

/-- The squared distance of a cell to itself is zero. -/
theorem d2_self (c : Cell) : d2 c c = 0 := by
  simp [d2]

/-- When the goal is reachable by a walk of `n` steps, some open tuple has
f value at most `n`. -/
theorem open_bound (ctx : Ctx) (st : AState) (hI : SInv ctx st)
    (n : ℕ) (hw : Steps ctx ctx.start ctx.endc n) :
    ∃ e ∈ st.open_set, fVal e ≤ (n : ℝ) := by
  rcases frontier_bound ctx st hI ctx.endc n ctx.start 0 hI.1.start0 hw with
    ⟨vz, hvz, hvzle⟩ | ⟨e, he, r, hr, hrle⟩
  · obtain ⟨e, he, hen, heg⟩ := hI.1.ge vz hvz
    refine ⟨e, he, ?_⟩
    rcases hI.1.open_form e he with ⟨hfg, hfd⟩ | hseed
    · rw [fVal, hfg, hfd, hen, d2_self, heg]
      simp only [Nat.cast_zero, Real.sqrt_zero, add_zero]
      exact_mod_cast (by omega : vz ≤ n)
    · rw [hseed, seedEntry, fVal]
      simp only [Nat.cast_zero, Real.sqrt_zero, add_zero]
      positivity
  · refine ⟨e, he, ?_⟩
    rcases hI.1.open_form e he with ⟨hfg, hfd⟩ | hseed
    · rw [fVal, hfg, hfd]
      have hadm : Real.sqrt ((d2 e.node ctx.endc : ℕ) : ℝ) ≤ (r : ℝ) :=
        steps_admissible hr
      have : (e.g : ℝ) + (r : ℝ) ≤ (n : ℝ) := by exact_mod_cast (by omega : e.g + r ≤ n)
      linarith
    · rw [hseed, seedEntry, fVal]
      simp only [Nat.cast_zero, Real.sqrt_zero, add_zero]
      positivity

/-- When the popped tuple is the goal, its g cost is bounded by the length
of any walk from start to goal. -/
theorem pop_goal_g_le (ctx : Ctx) (st : AState) (e0 : Entry) (rest : List Entry)
    (hI : SInv ctx st) (hopen : st.open_set = e0 :: rest)
    (hgoal : (minF e0 rest).node = ctx.endc)
    (n : ℕ) (hw : Steps ctx ctx.start ctx.endc n) :
    (minF e0 rest).g ≤ n := by
  obtain ⟨e', he', hfe'⟩ := open_bound ctx st hI n hw
  rw [hopen] at he'
  have hmin := minF_le e0 rest e' he'
  have hmmem : minF e0 rest ∈ st.open_set := by
    rw [hopen]
    exact minF_mem e0 rest
  have hfm : (((minF e0 rest).g : ℕ) : ℝ) ≤ fVal (minF e0 rest) := by
    rcases hI.1.open_form (minF e0 rest) hmmem with ⟨hfg, hfd⟩ | hseed
    · rw [fVal, hfg, hfd, hgoal, d2_self]
      simp
    · rw [hseed, seedEntry, fVal]
      simp
  have : ((minF e0 rest).g : ℝ) ≤ (n : ℝ) := le_trans hfm (le_trans hmin hfe')
  exact_mod_cast this

/-- `exhausted` means the open set was empty. -/
theorem stepA_exhausted_empty (ctx : Ctx) (st : AState)
    (h : stepA ctx st = .exhausted) : st.open_set = [] := by
  rw [stepA] at h
  split at h
  · rename_i hopen
    exact hopen
  · split at h
    · split at h
      · cases h
      · cases h
    · split at h
      · cases h
      · cases h

/-- Master lemma, success case: from any invariant state, with a reachable
goal at optimal distance `nstar`, the loop returns a start-to-goal chain of
exactly `nstar` steps. -/
theorem loopA_success (ctx : Ctx) (hrect : Rect ctx) (nstar : ℕ)
    (hw : Steps ctx ctx.start ctx.endc nstar)
    (hmin : ∀ k, Steps ctx ctx.start ctx.endc k → nstar ≤ k) :
    ∀ (fuel : ℕ) (st : AState), SInv ctx st → measureM ctx st < fuel →
    ∃ p, loopA ctx fuel st = .ok p [.printed p, .report .pathFound] ∧ p ≠ [] ∧
      p.head? = some ctx.start ∧ p.getLast? = some ctx.endc ∧
      List.Chain' StepRel p ∧ (∀ c ∈ p, c = ctx.start ∨ OkCell ctx c) ∧
      p.length = nstar + 1 := by
  intro fuel
  induction fuel with
  | zero =>
    intro st _ hm
    omega
  | succ f ih =>
    intro st hI hm
    cases hstep : stepA ctx st with
    | exhausted =>
      exfalso
      obtain ⟨e, he, -⟩ := open_bound ctx st hI nstar hw
      rw [stepA_exhausted_empty ctx st hstep] at he
      cases he
    | found p =>
      obtain ⟨e0, rest, hopen, hgoal, hhead, hlast, hchain, hmemp, hsteps, hlen, hne⟩ :=
        stepA_found_spec ctx st p hI hstep
      have hgle := pop_goal_g_le ctx st e0 rest hI hopen hgoal nstar hw
      have hlow := hmin (p.length - 1) hsteps
      have hplen : p.length = nstar + 1 := by
        have hpos : 0 < p.length := List.length_pos.mpr hne
        omega
      refine ⟨p, ?_, hne, hhead, hlast, hchain, hmemp, hplen⟩
      simp [loopA, hstep]
    | stuck => exact absurd hstep (stepA_not_stuck ctx st hI)
    | failed e => exact absurd hstep (stepA_no_failed ctx hrect st e)
    | stepped st2 =>
      have hI2 := stepA_stepped_inv ctx st st2 hI hstep
      have hm2 := stepA_measure ctx st st2 hI hstep
      obtain ⟨p, hok, hrest⟩ := ih st2 hI2 (by omega)
      refine ⟨p, ?_, hrest⟩
      rw [show loopA ctx (f + 1) st = loopA ctx f st2 by simp [loopA, hstep]]
      exact hok

/-- Master lemma, failure case: when no walk reaches the goal the loop
exhausts the open set, reports the failure message once, and returns the
empty list. -/
theorem loopA_unreachable (ctx : Ctx) (hrect : Rect ctx)
    (hunreach : ∀ n, ¬ Steps ctx ctx.start ctx.endc n) :
    ∀ (fuel : ℕ) (st : AState), SInv ctx st → measureM ctx st < fuel →
    loopA ctx fuel st = .ok [] [.report .noPathFound] := by
  intro fuel
  induction fuel with
  | zero =>
    intro st _ hm
    omega
  | succ f ih =>
    intro st hI hm
    cases hstep : stepA ctx st with
    | exhausted => simp [loopA, hstep]
    | found p =>
      exfalso
      obtain ⟨e0, rest, hopen, hgoal, -, -, -, -, hsteps, -, -⟩ :=
        stepA_found_spec ctx st p hI hstep
      exact hunreach (p.length - 1) hsteps
    | stuck => exact absurd hstep (stepA_not_stuck ctx st hI)
    | failed e => exact absurd hstep (stepA_no_failed ctx hrect st e)
    | stepped st2 =>
      have hI2 := stepA_stepped_inv ctx st st2 hI hstep
      have hm2 := stepA_measure ctx st st2 hI hstep
      rw [show loopA ctx (f + 1) st = loopA ctx f st2 by simp [loopA, hstep]]
      exact ih st2 hI2 (by omega)

/-! ### Claim-level path notions -/

/-- A 4-connected path over Free cells from start to goal, inclusive: the
specification-level notion of connectivity ("an ordered sequence of Cells
from start to goal inclusive, each consecutive pair differing by exactly
one 4-connected step", over in-bounds traversable cells). -/
def IsFreePath (ctx : Ctx) (l : List Cell) : Prop :=
  l ≠ [] ∧ l.head? = some ctx.start ∧ l.getLast? = some ctx.endc ∧
    List.Chain' StepRel l ∧ ∀ c ∈ l, OkCell ctx c

/-- Walk concatenation. -/
theorem steps_trans {ctx : Ctx} {a b c : Cell} {n m : ℕ}
    (h1 : Steps ctx a b n) (h2 : Steps ctx b c m) : Steps ctx a c (n + m) := by
  induction h2 with
  | refl => exact h1
  | tail d hd hs hok ih => exact Steps.tail d hd ih hok

/-- A chain whose non-head cells pass the guard is a walk. -/
theorem chain_steps (ctx : Ctx) :
    ∀ (l : List Cell) (a b : Cell), l.head? = some a → l.getLast? = some b →
    List.Chain' StepRel l → (∀ c ∈ l.tail, OkCell ctx c) →
    Steps ctx a b (l.length - 1) := by
  intro l
  induction l with
  | nil =>
    intro a b h
    cases h
  | cons x t ih =>
    intro a b hhead hlast hchain htail
    rw [List.head?_cons] at hhead
    cases hhead
    cases t with
    | nil =>
      rw [List.getLast?_singleton] at hlast
      cases hlast
      exact Steps.refl x
    | cons y t2 =>
      have hrel : StepRel x y := (List.chain'_cons.mp hchain).1
      have hchain2 : List.Chain' StepRel (y :: t2) := (List.chain'_cons.mp hchain).2
      have hoky : OkCell ctx y := htail y (List.mem_cons_self y t2)
      have hlast2 : (y :: t2).getLast? = some b := by
        rw [← hlast]
        rw [List.getLast?_cons_cons]
      have htail2 : ∀ c ∈ (y :: t2).tail, OkCell ctx c := by
        intro c hc
        exact htail c (List.mem_cons_of_mem y hc)
      have hrec := ih y b (List.head?_cons) hlast2 hchain2 htail2
      obtain ⟨d, hd, hy⟩ := hrel
      have hstep1 : Steps ctx x y 1 := by
        rw [hy] at hoky ⊢
        exact Steps.tail d hd (Steps.refl x) hoky
      have hcomp := steps_trans hstep1 hrec
      have harith : 1 + ((y :: t2).length - 1) = (x :: y :: t2).length - 1 := by
        simp
        omega
      rw [harith] at hcomp
      exact hcomp

/-- A specification-level free path is a walk of the search graph. -/
theorem freePath_steps (ctx : Ctx) (l : List Cell) (h : IsFreePath ctx l) :
    Steps ctx ctx.start ctx.endc (l.length - 1) := by
  obtain ⟨hne, hhead, hlast, hchain, hmem⟩ := h
  refine chain_steps ctx l ctx.start ctx.endc hhead hlast hchain ?_
  intro c hc
  exact hmem c (List.mem_of_mem_tail hc)

/-- A walk of the search graph from a guarded start cell yields a
specification-level free path of the same length. -/
theorem steps_freePath (ctx : Ctx) (hok : OkCell ctx ctx.start) :
    ∀ {z : Cell} {n : ℕ}, Steps ctx ctx.start z n →
    ∃ l : List Cell, l ≠ [] ∧ l.head? = some ctx.start ∧ l.getLast? = some z ∧
      List.Chain' StepRel l ∧ (∀ c ∈ l, OkCell ctx c) ∧ l.length = n + 1 := by
  intro z n h
  induction h with
  | refl =>
    exact ⟨[ctx.start], by simp, by simp, by simp, List.chain'_singleton _,
      by intro c hc; rw [List.mem_singleton] at hc; rw [hc]; exact hok, by simp⟩
  | tail d hd hs hokz ih =>
    rename_i b n'
    obtain ⟨l, hne, hhead, hlast, hchain, hmem, hlen⟩ := ih
    refine ⟨l ++ [cadd b d], by simp, ?_, ?_, ?_, ?_, ?_⟩
    · rw [List.head?_append_of_ne_nil _ hne]
      exact hhead
    · rw [List.getLast?_concat]
    · rw [List.chain'_append]
      refine ⟨hchain, List.chain'_singleton _, ?_⟩
      intro x hx y hy
      rw [hlast] at hx
      cases hx
      rw [List.head?_cons] at hy
      cases hy
      exact ⟨d, hd, rfl⟩
    · intro c hc
      rcases List.mem_append.mp hc with hc | hc
      · exact hmem c hc
      · rw [List.mem_singleton] at hc
        rw [hc]
        exact hokz
    · rw [List.length_append, hlen]
      simp

/-! ### Top-level unfoldings and trace shape -/

/-- Unfolding of `do_a_star` on a non-empty grid with a non-empty first
row: the random points are drawn (and dropped), the two start messages are
reported, and the main loop runs. -/
theorem do_a_star_run (r0 : List ℕ) (tl : List (List ℕ)) (s e : Cell)
    (rand : ℕ → ℤ × ℤ) (hrow : r0.length ≠ 0) :
    do_a_star (r0 :: tl) s e rand =
      match loopA ⟨r0 :: tl, s, e⟩ (loopFuel ⟨r0 :: tl, s, e⟩) (initState s) with
      | .ok p evs =>
          .ok p ([.report .createdRandomPoints, .report (.startLocation s)] ++ evs)
      | .err e' => .err e'
      | .timeout => .timeout := by
  rw [do_a_star]
  have hrow' : ¬ (({ grid := r0 :: tl, start := s, endc := e } : Ctx).ROW = 0) := hrow
  rw [if_neg hrow']

/-- The loop fuel is positive. -/
theorem loopFuel_pos (ctx : Ctx) : 0 < loopFuel ctx := by
  rw [loopFuel]
  omega

/-- A loop whose first iteration succeeds returns that path. -/
theorem loopA_of_found (ctx : Ctx) (fuel : ℕ) (st : AState) (p : List Cell)
    (hfuel : 0 < fuel) (hstep : stepA ctx st = .found p) :
    loopA ctx fuel st = .ok p [.printed p, .report .pathFound] := by
  cases fuel with
  | zero => omega
  | succ f => simp [loopA, hstep]

/-- Shape of every normal return of the loop: a success trace with a
non-empty path, or a failure trace with the empty path. -/
theorem loopA_shape (ctx : Ctx) :
    ∀ (fuel : ℕ) (st : AState) (p : List Cell) (ev : List Event),
    loopA ctx fuel st = .ok p ev →
    (p ≠ [] ∧ ev = [.printed p, .report .pathFound]) ∨
      (p = [] ∧ ev = [.report .noPathFound]) := by
  intro fuel
  induction fuel with
  | zero =>
    intro st p ev h
    rw [loopA] at h
    cases h
  | succ f ih =>
    intro st p ev h
    rw [loopA] at h
    cases hstep : stepA ctx st with
    | exhausted =>
      rw [hstep] at h
      cases h
      exact Or.inr ⟨rfl, rfl⟩
    | found q =>
      rw [hstep] at h
      cases h
      refine Or.inl ⟨?_, rfl⟩
      rw [stepA] at hstep
      split at hstep
      · cases hstep
      · split at hstep
        · split at hstep
          · cases hstep
          · rename_i w hw
            cases hstep
            simp
        · split at hstep
          · cases hstep
          · cases hstep
    | stuck =>
      rw [hstep] at h
      cases h
    | failed e =>
      rw [hstep] at h
      cases h
    | stepped st2 =>
      rw [hstep] at h
      exact ih st2 p ev h

/-- Safety of every returned non-empty path: it starts at the start cell,
ends at the goal cell, and advances by single movement offsets. -/
theorem loopA_path_safe (ctx : Ctx) :
    ∀ (fuel : ℕ) (st : AState) (p : List Cell) (ev : List Event),
    SInv ctx st → loopA ctx fuel st = .ok p ev → p ≠ [] →
    p.head? = some ctx.start ∧ p.getLast? = some ctx.endc ∧
      List.Chain' StepRel p ∧ (∀ c ∈ p, c = ctx.start ∨ OkCell ctx c) := by
  intro fuel
  induction fuel with
  | zero =>
    intro st p ev _ h
    rw [loopA] at h
    cases h
  | succ f ih =>
    intro st p ev hI h hne
    rw [loopA] at h
    cases hstep : stepA ctx st with
    | exhausted =>
      rw [hstep] at h
      cases h
      exact absurd rfl hne
    | found q =>
      rw [hstep] at h
      cases h
      obtain ⟨-, -, -, -, hhead, hlast, hchain, hmem, -, -, -⟩ :=
        stepA_found_spec ctx st p hI hstep
      exact ⟨hhead, hlast, hchain, hmem⟩
    | stuck =>
      rw [hstep] at h
      cases h
    | failed e =>
      rw [hstep] at h
      cases h
    | stepped st2 =>
      rw [hstep] at h
      exact ih st2 p ev (stepA_stepped_inv ctx st st2 hI hstep) h hne

/-! ### Cost monotonicity across iterations -/

/-- A relaxation only ever lowers recorded costs. -/
theorem relaxOne_mono (ctx : Ctx) (cur : Cell) (curG : ℕ) (st : AState)
    (d : ℤ × ℤ) (st' : AState) (h : relaxOne ctx cur curG st d = .ok st') :
    ∀ k v, lookupA st.g_scores k = some v →
    ∃ v', lookupA st'.g_scores k = some v' ∧ v' ≤ v := by
  intro k v hv
  rcases relaxOne_spec ctx cur curG st d st' h with ⟨heq, _⟩ | ⟨_, hfresh, heq⟩
  · rw [heq]
    exact ⟨v, hv, le_refl v⟩
  · subst heq
    by_cases hk : k = cadd cur d
    · subst hk
      refine ⟨curG + 1, ?_, le_of_lt (hfresh v hv)⟩
      rw [relaxed]
      exact lookupA_insertA_self _ _ _
    · refine ⟨v, ?_, le_refl v⟩
      rw [relaxed]
      rw [lookupA_insertA_ne _ _ _ _ hk]
      exact hv

/-- Folded relaxations only ever lower recorded costs. -/
theorem relaxList_mono (ctx : Ctx) (cur : Cell) (curG : ℕ) :
    ∀ (rem : List (ℤ × ℤ)) (st st' : AState),
    rem.foldlM (relaxOne ctx cur curG) st = .ok st' →
    ∀ k v, lookupA st.g_scores k = some v →
    ∃ v', lookupA st'.g_scores k = some v' ∧ v' ≤ v := by
  intro rem
  induction rem with
  | nil =>
    intro st st' h k v hv
    rw [List.foldlM_nil] at h
    cases h
    exact ⟨v, hv, le_refl v⟩
  | cons d rem' ih =>
    intro st st' h k v hv
    rw [List.foldlM_cons] at h
    cases h1 : relaxOne ctx cur curG st d with
    | error e =>
      rw [h1] at h
      cases h
    | ok st1 =>
      rw [h1] at h
      obtain ⟨v1, hv1, hle1⟩ := relaxOne_mono ctx cur curG st d st1 h1 k v hv
      obtain ⟨v2, hv2, hle2⟩ := ih st1 st' h k v1 hv1
      exact ⟨v2, hv2, le_trans hle2 hle1⟩

/-- One loop iteration only ever lowers recorded costs.  A recorded best
cost is overwritten only by a strictly smaller one. -/
theorem stepA_mono (ctx : Ctx) (st st2 : AState)
    (h : stepA ctx st = .stepped st2) :
    ∀ k v, lookupA st.g_scores k = some v →
    ∃ v', lookupA st2.g_scores k = some v' ∧ v' ≤ v := by
  intro k v hv
  rw [stepA] at h
  split at h
  · cases h
  · rename_i e0 rest hopen
    split at h
    · split at h
      · cases h
      · cases h
    · split at h
      · cases h
      · rename_i hra
        cases h
        exact relaxList_mono ctx (minF e0 rest).node (minF e0 rest).g movements
          { st with open_set := erase1 st.open_set (minF e0 rest) } st2 hra k v hv

/-- The loop-iteration successor function: `some` of the next state when
the iteration continues the search, `none` at any exit. -/
def nextA (ctx : Ctx) (st : AState) : Option AState :=
  match stepA ctx st with
  | .stepped st2 => some st2
  | _ => none

/-- Iterated loop body: the state after `n` continuing iterations. -/
def iterA (ctx : Ctx) : ℕ → AState → Option AState
  | 0, st => some st
  | n + 1, st => (nextA ctx st).bind (iterA ctx n)

/-- Decomposition of iteration counts. -/
theorem iterA_add (ctx : Ctx) :
    ∀ (a b : ℕ) (st : AState),
    iterA ctx (a + b) st = (iterA ctx a st).bind (iterA ctx b) := by
  intro a
  induction a with
  | zero =>
    intro b st
    rw [iterA]
    simp only [Nat.zero_add]
    rfl
  | succ a' ih =>
    intro b st
    have : a' + 1 + b = (a' + b) + 1 := by omega
    rw [this, iterA, iterA]
    cases nextA ctx st with
    | none => rfl
    | some st1 =>
      simp only [Option.some_bind]
      exact ih b st1

/-- Recorded best costs never increase along the iterations of the main
loop. -/
theorem iterA_mono (ctx : Ctx) :
    ∀ (n : ℕ) (st st' : AState), iterA ctx n st = some st' →
    ∀ k v, lookupA st.g_scores k = some v →
    ∃ v', lookupA st'.g_scores k = some v' ∧ v' ≤ v := by
  intro n
  induction n with
  | zero =>
    intro st st' h k v hv
    rw [iterA] at h
    cases h
    exact ⟨v, hv, le_refl v⟩
  | succ n' ih =>
    intro st st' h k v hv
    rw [iterA] at h
    cases hn : nextA ctx st with
    | none =>
      rw [hn] at h
      cases h
    | some st1 =>
      rw [hn] at h
      simp only [Option.some_bind] at h
      rw [nextA] at hn
      split at hn
      · rename_i st2 hstep
        cases hn
        obtain ⟨v1, hv1, hle1⟩ := stepA_mono ctx st st1 hstep k v hv
        obtain ⟨v2, hv2, hle2⟩ := ih st1 st' h k v1 hv1
        exact ⟨v2, hv2, le_trans hle2 hle1⟩
      · cases hn

/-! ### Claim theorems -/

/-- Fixed random stream used in concrete witnesses. -/
def rand0 : ℕ → ℤ × ℤ := fun _ => (0, 0)

/-- Number of reporter invocations in a trace. -/
def reportCount (ev : List Event) : ℕ :=
  (ev.filter fun x => match x with | .report _ => true | .printed _ => false).length

/-- Number of bare prints in a trace. -/
def printCount (ev : List Event) : ℕ :=
  (ev.filter fun x => match x with | .printed _ => true | .report _ => false).length

/-- Number of failure messages in a trace. -/
def failCount (ev : List Event) : ℕ :=
  (ev.filter fun x =>
    match x with | .report .noPathFound => true | _ => false).length

/-- C9: on any input whatsoever both loops of `do_a_star` perform finitely
many iterations: the call never exhausts its (provably sufficient) fuel,
i.e. the modelled divergence outcome is unreachable. -/
theorem C9_terminates (grid : Grid) (s e : Cell) (rand : ℕ → ℤ × ℤ) :
    do_a_star grid s e rand ≠ Outcome.timeout := by
  cases grid with
  | nil =>
    rw [do_a_star]
    intro h
    cases h
  | cons r0 tl =>
    by_cases hrow : r0.length = 0
    · rw [do_a_star]
      have hrow' : (({ grid := r0 :: tl, start := s, endc := e } : Ctx).ROW = 0) := hrow
      rw [if_pos hrow']
      intro h
      cases h
    · rw [do_a_star_run r0 tl s e rand hrow]
      have hnt := loopA_no_timeout ⟨r0 :: tl, s, e⟩ (loopFuel ⟨r0 :: tl, s, e⟩)
        (initState s) (inv_init ⟨r0 :: tl, s, e⟩) (measure_init_lt ⟨r0 :: tl, s, e⟩)
      cases hloop : loopA ⟨r0 :: tl, s, e⟩ (loopFuel ⟨r0 :: tl, s, e⟩) (initState s) with
      | ok p evs =>
        intro h
        cases h
      | err e' =>
        intro h
        cases h
      | timeout => exact absurd hloop hnt

/-- C10: on a non-empty rectangular grid (at least one row and one
column), for arbitrary integer start and goal cells - out of bounds or
blocked included - the call raises no error and returns normally: every
grid access is behind the bounds guard. -/
theorem C10_no_error (grid : Grid) (s e : Cell) (rand : ℕ → ℤ × ℤ)
    (hlen : 0 < grid.length)
    (hrect : ∀ row ∈ grid, row.length = (grid.headD []).length)
    (hwidth : 0 < (grid.headD []).length) :
    ∃ p ev, do_a_star grid s e rand = .ok p ev := by
  cases grid with
  | nil => cases hlen
  | cons r0 tl =>
    have hrow : r0.length ≠ 0 := by
      simp only [List.headD_cons] at hwidth
      omega
    rw [do_a_star_run r0 tl s e rand hrow]
    have hrect' : Rect ⟨r0 :: tl, s, e⟩ := by
      intro row hrowm
      exact hrect row hrowm
    obtain ⟨p, ev, hloop⟩ := loopA_ok ⟨r0 :: tl, s, e⟩ hrect' (loopFuel ⟨r0 :: tl, s, e⟩)
      (initState s) (inv_init ⟨r0 :: tl, s, e⟩) (measure_init_lt ⟨r0 :: tl, s, e⟩)
    rw [hloop]
    exact ⟨p, _, rfl⟩

/-- Witness for C10 at a concrete input with an out-of-bounds start. -/
theorem C10_no_error_witness :
    (0 : ℕ) < ([[1]] : Grid).length ∧
      (∀ row ∈ ([[1]] : Grid), row.length = (([[1]] : Grid).headD []).length) ∧
      (0 : ℕ) < (([[1]] : Grid).headD []).length ∧
      ∃ p ev, do_a_star [[1]] (5, -7) (0, 0) rand0 = .ok p ev :=
  ⟨by decide, by decide, by decide,
    C10_no_error [[1]] (5, -7) (0, 0) rand0 (by decide) (by decide) (by decide)⟩

/-- C2: whenever `do_a_star` returns normally with a non-empty path - on
any grid, start, and goal - the path starts at the start cell, ends at the
goal cell, and each consecutive pair differs by exactly one movement
offset. -/
theorem C2_path_wellformed (grid : Grid) (s e : Cell) (rand : ℕ → ℤ × ℤ)
    (p : List Cell) (ev : List Event)
    (h : do_a_star grid s e rand = .ok p ev) (hne : p ≠ []) :
    p.head? = some s ∧ p.getLast? = some e ∧ List.Chain' StepRel p := by
  cases grid with
  | nil =>
    rw [do_a_star] at h
    cases h
  | cons r0 tl =>
    by_cases hrow : r0.length = 0
    · rw [do_a_star] at h
      have hrow' : (({ grid := r0 :: tl, start := s, endc := e } : Ctx).ROW = 0) := hrow
      rw [if_pos hrow'] at h
      cases h
    · rw [do_a_star_run r0 tl s e rand hrow] at h
      cases hloop : loopA ⟨r0 :: tl, s, e⟩ (loopFuel ⟨r0 :: tl, s, e⟩) (initState s) with
      | ok q evs =>
        rw [hloop] at h
        cases h
        obtain ⟨hhead, hlast, hchain, -⟩ := loopA_path_safe ⟨r0 :: tl, s, e⟩
          (loopFuel ⟨r0 :: tl, s, e⟩) (initState s) _ _
          (inv_init ⟨r0 :: tl, s, e⟩) hloop hne
        exact ⟨hhead, hlast, hchain⟩
      | err e' =>
        rw [hloop] at h
        cases h
      | timeout =>
        rw [hloop] at h
        cases h

/-- Witness for C2 at a concrete run. -/
theorem C2_path_wellformed_witness :
    do_a_star [[1, 1]] (0, 0) (0, 1) rand0 =
        .ok [(0, 0), (0, 1)]
          [.report .createdRandomPoints, .report (.startLocation (0, 0)),
            .printed [(0, 0), (0, 1)], .report .pathFound] ∧
      ([(0, 0), (0, 1)] : List Cell) ≠ [] ∧
      (([(0, 0), (0, 1)] : List Cell).head? = some (0, 0) ∧
        ([(0, 0), (0, 1)] : List Cell).getLast? = some (0, 1) ∧
        List.Chain' StepRel [(0, 0), (0, 1)]) :=
  ⟨by decide, by decide,
    C2_path_wellformed [[1, 1]] (0, 0) (0, 1) rand0 [(0, 0), (0, 1)]
      [.report .createdRandomPoints, .report (.startLocation (0, 0)),
        .printed [(0, 0), (0, 1)], .report .pathFound]
      (by decide) (by decide)⟩

/-- C6: on a non-empty grid (one cell at least), when start and goal
coincide the returned path is the single-cell sequence `[start]`,
whatever the cell's state. -/
theorem C6_trivial_path (grid : Grid) (s : Cell) (rand : ℕ → ℤ × ℤ)
    (hlen : 0 < grid.length) (hwidth : 0 < (grid.headD []).length) :
    ∃ ev, do_a_star grid s s rand = .ok [s] ev := by
  cases grid with
  | nil => cases hlen
  | cons r0 tl =>
    have hrow : r0.length ≠ 0 := by
      simp only [List.headD_cons] at hwidth
      omega
    rw [do_a_star_run r0 tl s s rand hrow]
    have hstep : stepA ⟨r0 :: tl, s, s⟩ (initState s) = .found [s] := by
      show (if (minF (seedEntry s) []).node = s then _ else _) = _
      rw [if_pos (show (minF (seedEntry s) []).node = s from rfl)]
      rfl
    rw [loopA_of_found ⟨r0 :: tl, s, s⟩ (loopFuel ⟨r0 :: tl, s, s⟩) (initState s) [s]
      (loopFuel_pos _) hstep]
    exact ⟨_, rfl⟩

/-- Witness for C6 at a concrete input. -/
theorem C6_trivial_path_witness :
    (0 : ℕ) < ([[1]] : Grid).length ∧ (0 : ℕ) < (([[1]] : Grid).headD []).length ∧
      ∃ ev, do_a_star [[1]] (0, 0) (0, 0) rand0 = .ok [(0, 0)] ev :=
  ⟨by decide, by decide, C6_trivial_path [[1]] (0, 0) rand0 (by decide) (by decide)⟩

/-- C7: determinism.  The returned outcome does not depend on the stream
of random points drawn at the beginning of the call (the model is a pure
function of grid, start and goal otherwise), and the open-set selection
always picks the earliest-inserted tuple among those of minimal f cost:
every tuple to the left of the selected one is strictly costlier, every
tuple to its right at least as costly. -/
theorem C7_deterministic :
    (∀ (grid : Grid) (s e : Cell) (r1 r2 : ℕ → ℤ × ℤ),
      do_a_star grid s e r1 = do_a_star grid s e r2) ∧
    (∀ (e0 : Entry) (l : List Entry), ∃ l1 l2,
      e0 :: l = l1 ++ minF e0 l :: l2 ∧
      (∀ x ∈ l1, fVal (minF e0 l) < fVal x) ∧
      (∀ x ∈ l2, fVal (minF e0 l) ≤ fVal x)) := by
  constructor
  · intro grid s e r1 r2
    cases grid with
    | nil => rfl
    | cons r0 tl =>
      rw [do_a_star, do_a_star]
  · intro e0 l
    exact minF_decomp l e0

/-- C8: across any two (ordered) iteration points of the main loop, every
recorded best cost is monotonically non-increasing; and within a single
relaxation an existing recorded cost is only ever replaced by a strictly
smaller one. -/
theorem C8_gscore_monotone :
    (∀ (ctx : Ctx) (j k : ℕ) (st0 stj stk : AState), j ≤ k →
      iterA ctx j st0 = some stj → iterA ctx k st0 = some stk →
      ∀ c vj vk, lookupA stj.g_scores c = some vj →
        lookupA stk.g_scores c = some vk → vk ≤ vj) ∧
    (∀ (ctx : Ctx) (cur : Cell) (curG : ℕ) (st st' : AState) (d : ℤ × ℤ),
      relaxOne ctx cur curG st d = .ok st' →
      ∀ c old v', lookupA st.g_scores c = some old →
        lookupA st'.g_scores c = some v' → v' = old ∨ v' < old) := by
  constructor
  · intro ctx j k st0 stj stk hjk hj hk c vj vk hvj hvk
    have hdecomp : iterA ctx k st0 = (iterA ctx j st0).bind (iterA ctx (k - j)) := by
      rw [← iterA_add ctx j (k - j) st0]
      congr 1
      omega
    rw [hdecomp, hj] at hk
    simp only [Option.some_bind] at hk
    obtain ⟨v', hv', hle⟩ := iterA_mono ctx (k - j) stj stk hk c vj hvj
    rw [hvk] at hv'
    cases hv'
    exact hle
  · intro ctx cur curG st st' d h c old v' hold hv'
    obtain ⟨v'', hv'', hle⟩ := relaxOne_mono ctx cur curG st d st' h c old hold
    rw [hv'] at hv''
    cases hv''
    rcases Nat.lt_or_ge v' old with hlt | hge
    · exact Or.inr hlt
    · exact Or.inl (le_antisymm hle hge)

/-- Witness for C8 at a concrete iteration pair. -/
theorem C8_gscore_monotone_witness :
    (0 : ℕ) ≤ 1 ∧
      iterA ⟨[[1, 1]], (0, 0), (0, 1)⟩ 0 (initState (0, 0)) = some (initState (0, 0)) ∧
      iterA ⟨[[1, 1]], (0, 0), (0, 1)⟩ 1 (initState (0, 0)) =
        some { open_set := [relaxEntry ⟨[[1, 1]], (0, 0), (0, 1)⟩ (0, 0) 0 (0, 1)],
               g_scores := [((0, 0), 0), ((0, 1), 1)],
               parents := [((0, 1), (0, 0))] } ∧
      lookupA (initState ((0, 0) : Cell)).g_scores (0, 0) = some 0 ∧
      lookupA [(((0, 0) : Cell), 0), ((0, 1), 1)] (0, 0) = some 0 ∧
      (0 : ℕ) ≤ 0 :=
  ⟨by decide, by decide, by decide, by decide, by decide,
    C8_gscore_monotone.1 ⟨[[1, 1]], (0, 0), (0, 1)⟩ 0 1 (initState (0, 0))
      (initState (0, 0))
      { open_set := [relaxEntry ⟨[[1, 1]], (0, 0), (0, 1)⟩ (0, 0) 0 (0, 1)],
        g_scores := [((0, 0), 0), ((0, 1), 1)],
        parents := [((0, 1), (0, 0))] }
      (by decide) (by decide) (by decide) (0, 0) 0 0 (by decide) (by decide)⟩

/-- C1: on a non-empty rectangular grid with in-bounds traversable start
and goal, if some 4-connected path over Free cells connects start to goal
then `do_a_star` returns such a path of minimal length (equivalently, with
the minimum possible number of unit steps). -/
theorem C1_shortest_path (grid : Grid) (s e : Cell) (rand : ℕ → ℤ × ℤ)
    (hlen : 0 < grid.length)
    (hrect : ∀ row ∈ grid, row.length = (grid.headD []).length)
    (hs : OkCell ⟨grid, s, e⟩ s) (he : OkCell ⟨grid, s, e⟩ e)
    (hconn : ∃ l, IsFreePath ⟨grid, s, e⟩ l) :
    ∃ p ev, do_a_star grid s e rand = .ok p ev ∧ IsFreePath ⟨grid, s, e⟩ p ∧
      ∀ q, IsFreePath ⟨grid, s, e⟩ q → p.length ≤ q.length := by
  cases grid with
  | nil => cases hlen
  | cons r0 tl =>
    have hrow : r0.length ≠ 0 := by
      obtain ⟨⟨⟨-, -⟩, -⟩, h4⟩ :
          ((0 ≤ s.1 ∧ s.1 < ((⟨r0 :: tl, s, e⟩ : Ctx).COL : ℤ)) ∧ 0 ≤ s.2) ∧
            s.2 < ((⟨r0 :: tl, s, e⟩ : Ctx).ROW : ℤ) := by
        have := hs.1
        rw [inB] at this
        simp only [Bool.and_eq_true, decide_eq_true_eq] at this
        exact this
      have : (0 : ℤ) ≤ s.2 := by
        have := hs.1
        rw [inB] at this
        simp only [Bool.and_eq_true, decide_eq_true_eq] at this
        exact this.1.2
      intro hcon
      rw [show ((⟨r0 :: tl, s, e⟩ : Ctx).ROW) = r0.length from rfl, hcon] at h4
      omega
    have hrect' : Rect ⟨r0 :: tl, s, e⟩ := fun row hm => hrect row hm
    obtain ⟨l0, hl0⟩ := hconn
    have hsteps0 : Steps ⟨r0 :: tl, s, e⟩ s e (l0.length - 1) :=
      freePath_steps ⟨r0 :: tl, s, e⟩ l0 hl0
    have hex : ∃ n, Steps ⟨r0 :: tl, s, e⟩ s e n := ⟨l0.length - 1, hsteps0⟩
    have hdec : DecidablePred (fun n => Steps ⟨r0 :: tl, s, e⟩ s e n) :=
      fun n => Classical.dec _
    obtain ⟨p, hloop, hne, hhead, hlast, hchain, hmem, hplen⟩ :=
      loopA_success ⟨r0 :: tl, s, e⟩ hrect' (@Nat.find _ hdec hex)
        (@Nat.find_spec _ hdec hex)
        (fun k hk => @Nat.find_min' _ hdec hex k hk)
        (loopFuel ⟨r0 :: tl, s, e⟩) (initState s)
        (inv_init ⟨r0 :: tl, s, e⟩) (measure_init_lt ⟨r0 :: tl, s, e⟩)
    rw [do_a_star_run r0 tl s e rand hrow, hloop]
    refine ⟨p, _, rfl, ⟨hne, hhead, hlast, hchain, ?_⟩, ?_⟩
    · intro c hc
      rcases hmem c hc with h | h
      · rw [h]
        exact hs
      · exact h
    · intro q hq
      have hq1 : Steps ⟨r0 :: tl, s, e⟩ s e (q.length - 1) :=
        freePath_steps ⟨r0 :: tl, s, e⟩ q hq
      have hmin := @Nat.find_min' _ hdec hex (q.length - 1) hq1
      have hqne : q ≠ [] := hq.1
      have hqpos : 0 < q.length := List.length_pos.mpr hqne
      omega

/-- Witness for C1 at a concrete input. -/
theorem C1_shortest_path_witness :
    (0 : ℕ) < ([[1, 1]] : Grid).length ∧
      (∀ row ∈ ([[1, 1]] : Grid), row.length = (([[1, 1]] : Grid).headD []).length) ∧
      OkCell ⟨[[1, 1]], (0, 0), (0, 1)⟩ (0, 0) ∧
      OkCell ⟨[[1, 1]], (0, 0), (0, 1)⟩ (0, 1) ∧
      (∃ l, IsFreePath ⟨[[1, 1]], (0, 0), (0, 1)⟩ l) ∧
      ∃ p ev, do_a_star [[1, 1]] (0, 0) (0, 1) rand0 = .ok p ev ∧
        IsFreePath ⟨[[1, 1]], (0, 0), (0, 1)⟩ p ∧
        ∀ q, IsFreePath ⟨[[1, 1]], (0, 0), (0, 1)⟩ q → p.length ≤ q.length := by
  have hfree : IsFreePath ⟨[[1, 1]], (0, 0), (0, 1)⟩ [(0, 0), (0, 1)] := by
    refine ⟨by decide, by decide, by decide, ?_, ?_⟩
    · rw [List.chain'_cons]
      exact ⟨⟨(0, 1), by decide, by decide⟩, List.chain'_singleton _⟩
    · intro c hc
      rcases List.mem_cons.mp hc with h | h
      · rw [h]
        exact ⟨by decide, by decide⟩
      · rw [List.mem_singleton] at h
        rw [h]
        exact ⟨by decide, by decide⟩
  exact ⟨by decide, by decide, ⟨by decide, by decide⟩, ⟨by decide, by decide⟩,
    ⟨[(0, 0), (0, 1)], hfree⟩,
    C1_shortest_path [[1, 1]] (0, 0) (0, 1) rand0 (by decide) (by decide)
      ⟨by decide, by decide⟩ ⟨by decide, by decide⟩ ⟨[(0, 0), (0, 1)], hfree⟩⟩

/-- C3, counterexample: the claim as stated - if no 4-connected sequence
of Free cells connects start to goal, the result is empty with one failure
message - fails on a Blocked start adjacent to a Free goal: the source
never guards the cell being expanded, so the search walks off the Blocked
start and reports success. -/
theorem C3_counterexample :
    ¬ (∀ (grid : Grid) (s e : Cell) (rand : ℕ → ℤ × ℤ),
      (∀ l, ¬ IsFreePath ⟨grid, s, e⟩ l) →
      ∃ ev, do_a_star grid s e rand = .ok [] ev ∧ failCount ev = 1) := by
  intro h
  have hpre : ∀ l, ¬ IsFreePath ⟨[[0, 1]], (0, 0), (0, 1)⟩ l := by
    intro l hl
    obtain ⟨hne, hhead, -, -, hmem⟩ := hl
    cases l with
    | nil => exact hne rfl
    | cons c t =>
      rw [List.head?_cons] at hhead
      cases hhead
      have hok := (hmem (0, 0) (List.mem_cons_self _ _)).2
      have hc : cellAt ⟨[[0, 1]], (0, 0), (0, 1)⟩ (0, 0) = some 0 := by decide
      rw [hc] at hok
      exact absurd hok (by decide)
  obtain ⟨ev, heq, -⟩ := h [[0, 1]] (0, 0) (0, 1) rand0 hpre
  have hrun : do_a_star [[0, 1]] (0, 0) (0, 1) rand0 =
      .ok [(0, 0), (0, 1)]
        [.report .createdRandomPoints, .report (.startLocation (0, 0)),
          .printed [(0, 0), (0, 1)], .report .pathFound] := by
    decide
  rw [hrun] at heq
  cases heq

/-- C3, amended: on a non-empty rectangular grid, when the goal is
unreachable from the start in the graph the source actually searches -
no 4-connected walk whose cells after the first are in-bounds Free cells
reaches the goal - the call returns the empty sequence normally and the
failure message appears in the trace exactly once (the full trace is the
two start messages followed by the single failure message). -/
theorem C3_amended_unreachable (grid : Grid) (s e : Cell) (rand : ℕ → ℤ × ℤ)
    (hlen : 0 < grid.length)
    (hrect : ∀ row ∈ grid, row.length = (grid.headD []).length)
    (hwidth : 0 < (grid.headD []).length)
    (hunreach : ∀ n, ¬ Steps ⟨grid, s, e⟩ s e n) :
    do_a_star grid s e rand =
      .ok [] [.report .createdRandomPoints, .report (.startLocation s),
        .report .noPathFound] := by
  cases grid with
  | nil => cases hlen
  | cons r0 tl =>
    have hrow : r0.length ≠ 0 := by
      simp only [List.headD_cons] at hwidth
      omega
    have hrect' : Rect ⟨r0 :: tl, s, e⟩ := fun row hm => hrect row hm
    rw [do_a_star_run r0 tl s e rand hrow]
    rw [loopA_unreachable ⟨r0 :: tl, s, e⟩ hrect' hunreach
      (loopFuel ⟨r0 :: tl, s, e⟩) (initState s)
      (inv_init ⟨r0 :: tl, s, e⟩) (measure_init_lt ⟨r0 :: tl, s, e⟩)]
    rfl

/-- No walk ends in a cell failing the guard, except the trivial walk. -/
theorem steps_last_ok (ctx : Ctx) {a z : Cell} {n : ℕ}
    (h : Steps ctx a z n) (hz : ¬ OkCell ctx z) : z = a := by
  cases h with
  | refl => rfl
  | tail d hd hs hok => exact absurd hok hz

/-- Witness for the amended C3 on a concrete grid whose goal cell is
Blocked. -/
theorem C3_amended_unreachable_witness :
    (0 : ℕ) < ([[1, 0]] : Grid).length ∧
      (∀ row ∈ ([[1, 0]] : Grid), row.length = (([[1, 0]] : Grid).headD []).length) ∧
      (0 : ℕ) < (([[1, 0]] : Grid).headD []).length ∧
      (∀ n, ¬ Steps ⟨[[1, 0]], (0, 0), (0, 1)⟩ (0, 0) (0, 1) n) ∧
      do_a_star [[1, 0]] (0, 0) (0, 1) rand0 =
        .ok [] [.report .createdRandomPoints, .report (.startLocation (0, 0)),
          .report .noPathFound] := by
  have hunreach : ∀ n, ¬ Steps ⟨[[1, 0]], (0, 0), (0, 1)⟩ (0, 0) (0, 1) n := by
    intro n h
    have hz := steps_last_ok ⟨[[1, 0]], (0, 0), (0, 1)⟩ h ?_
    · cases hz
    · intro hok
      have hok2 := hok.2
      have hc : cellAt ⟨[[1, 0]], (0, 0), (0, 1)⟩ (0, 1) = some 0 := by decide
      rw [hc] at hok2
      exact absurd hok2 (by decide)
  exact ⟨by decide, by decide, by decide, hunreach,
    C3_amended_unreachable [[1, 0]] (0, 0) (0, 1) rand0 (by decide) (by decide)
      (by decide) hunreach⟩

/-- C4, counterexample: the claim as stated - a Blocked start or goal
(distinct from the other) forces an empty result - fails for a Blocked
start: the expansion guard only inspects the neighbor being entered. -/
theorem C4_counterexample :
    ¬ (∀ (grid : Grid) (s e : Cell) (rand : ℕ → ℤ × ℤ), s ≠ e →
      ((∃ v, cellAt ⟨grid, s, e⟩ s = some v ∧ v ≠ 1) ∨
        (∃ v, cellAt ⟨grid, s, e⟩ e = some v ∧ v ≠ 1)) →
      ∀ p ev, do_a_star grid s e rand = .ok p ev → p = []) := by
  intro h
  have hrun : do_a_star [[0, 1]] (0, 0) (0, 1) rand0 =
      .ok [(0, 0), (0, 1)]
        [.report .createdRandomPoints, .report (.startLocation (0, 0)),
          .printed [(0, 0), (0, 1)], .report .pathFound] := by
    decide
  have := h [[0, 1]] (0, 0) (0, 1) rand0 (by decide)
    (Or.inl ⟨0, by decide, by decide⟩) [(0, 0), (0, 1)] _ hrun
  cases this

/-- C4, amended: a Blocked goal distinct from the start does force the
empty result (the goal can then never enter the open set); a Blocked
start forces nothing. -/
theorem C4_amended_goal_blocked (grid : Grid) (s e : Cell) (rand : ℕ → ℤ × ℤ)
    (hlen : 0 < grid.length)
    (hrect : ∀ row ∈ grid, row.length = (grid.headD []).length)
    (hwidth : 0 < (grid.headD []).length)
    (hne : s ≠ e)
    (hblocked : ∃ v, cellAt ⟨grid, s, e⟩ e = some v ∧ v ≠ 1) :
    ∃ ev, do_a_star grid s e rand = .ok [] ev := by
  have hunreach : ∀ n, ¬ Steps ⟨grid, s, e⟩ s e n := by
    intro n h
    obtain ⟨v, hv, hv1⟩ := hblocked
    have hz := steps_last_ok ⟨grid, s, e⟩ h ?_
    · exact hne hz.symm
    · intro hok
      have hok2 := hok.2
      rw [hv] at hok2
      injection hok2 with h3
      exact hv1 h3
  exact ⟨_, C3_amended_unreachable grid s e rand hlen hrect hwidth hunreach⟩

/-- Witness for the amended C4 on a concrete grid with a Blocked goal. -/
theorem C4_amended_goal_blocked_witness :
    (0 : ℕ) < ([[1, 1, 0]] : Grid).length ∧
      (∀ row ∈ ([[1, 1, 0]] : Grid),
        row.length = (([[1, 1, 0]] : Grid).headD []).length) ∧
      (0 : ℕ) < (([[1, 1, 0]] : Grid).headD []).length ∧
      ((0, 0) : Cell) ≠ (0, 2) ∧
      (∃ v, cellAt ⟨[[1, 1, 0]], (0, 0), (0, 2)⟩ (0, 2) = some v ∧ v ≠ 1) ∧
      ∃ ev, do_a_star [[1, 1, 0]] (0, 0) (0, 2) rand0 = .ok [] ev :=
  ⟨by decide, by decide, by decide, by decide, ⟨0, by decide, by decide⟩,
    C4_amended_goal_blocked [[1, 1, 0]] (0, 0) (0, 2) rand0 (by decide) (by decide)
      (by decide) (by decide) ⟨0, by decide, by decide⟩⟩

/-- C5, counterexample: the claim as stated implies that a completed call
invokes the reporter twice (once at search start plus once for the
outcome) and has no other observable effect; in the source the reporter is
invoked twice before the loop, and on success the reconstructed path is
printed.  A one-cell search refutes both counts. -/
theorem C5_counterexample :
    ¬ (∀ (grid : Grid) (s e : Cell) (rand : ℕ → ℤ × ℤ) (p : List Cell)
        (ev : List Event), do_a_star grid s e rand = .ok p ev →
        reportCount ev = 2 ∧ printCount ev = 0) := by
  intro h
  have hrun : do_a_star [[1]] (0, 0) (0, 0) rand0 =
      .ok [(0, 0)]
        [.report .createdRandomPoints, .report (.startLocation (0, 0)),
          .printed [(0, 0)], .report .pathFound] := by
    decide
  have := h [[1]] (0, 0) (0, 0) rand0 [(0, 0)] _ hrun
  have hrc : reportCount
      [Event.report .createdRandomPoints, Event.report (.startLocation ((0, 0) : Cell)),
        Event.printed [((0, 0) : Cell)], Event.report .pathFound] = 3 := by
    decide
  rw [hrc] at this
  exact absurd this.1 (by decide)

/-- C5, amended: in every completed call the reporter is invoked exactly
three times - twice at search start (the random-points message and the
start-location message) and once for the outcome - and on success the one
further observable effect is the bare print of the reconstructed path. -/
theorem C5_amended_trace (grid : Grid) (s e : Cell) (rand : ℕ → ℤ × ℤ)
    (p : List Cell) (ev : List Event)
    (h : do_a_star grid s e rand = .ok p ev) :
    (p ≠ [] ∧ ev = [.report .createdRandomPoints, .report (.startLocation s),
        .printed p, .report .pathFound]) ∨
      (p = [] ∧ ev = [.report .createdRandomPoints, .report (.startLocation s),
        .report .noPathFound]) := by
  cases grid with
  | nil =>
    rw [do_a_star] at h
    cases h
  | cons r0 tl =>
    by_cases hrow : r0.length = 0
    · rw [do_a_star] at h
      have hrow' : (({ grid := r0 :: tl, start := s, endc := e } : Ctx).ROW = 0) := hrow
      rw [if_pos hrow'] at h
      cases h
    · rw [do_a_star_run r0 tl s e rand hrow] at h
      cases hloop : loopA ⟨r0 :: tl, s, e⟩ (loopFuel ⟨r0 :: tl, s, e⟩) (initState s) with
      | ok q evs =>
        rw [hloop] at h
        cases h
        rcases loopA_shape ⟨r0 :: tl, s, e⟩ (loopFuel ⟨r0 :: tl, s, e⟩) (initState s)
          _ _ hloop with ⟨hne, hev⟩ | ⟨hnil, hev⟩
        · subst hev
          exact Or.inl ⟨hne, rfl⟩
        · subst hev
          exact Or.inr ⟨hnil, rfl⟩
      | err e' =>
        rw [hloop] at h
        cases h
      | timeout =>
        rw [hloop] at h
        cases h

/-- Witness for the amended C5 on a concrete successful call. -/
theorem C5_amended_trace_witness :
    do_a_star [[1]] (0, 0) (0, 0) rand0 =
        .ok [(0, 0)]
          [.report .createdRandomPoints, .report (.startLocation (0, 0)),
            .printed [(0, 0)], .report .pathFound] ∧
      ((([(0, 0)] : List Cell) ≠ [] ∧
          ([Event.report .createdRandomPoints,
            Event.report (.startLocation ((0, 0) : Cell)),
            Event.printed [((0, 0) : Cell)], Event.report .pathFound]
            = [.report .createdRandomPoints, .report (.startLocation ((0, 0) : Cell)),
              .printed [((0, 0) : Cell)], .report .pathFound])) ∨
        (([(0, 0)] : List Cell) = [] ∧
          ([Event.report .createdRandomPoints,
            Event.report (.startLocation ((0, 0) : Cell)),
            Event.printed [((0, 0) : Cell)], Event.report .pathFound]
            = [.report .createdRandomPoints, .report (.startLocation ((0, 0) : Cell)),
              .report .noPathFound]))) :=
  ⟨by decide,
    C5_amended_trace [[1]] (0, 0) (0, 0) rand0 [(0, 0)]
      [.report .createdRandomPoints, .report (.startLocation (0, 0)),
        .printed [(0, 0)], .report .pathFound] (by decide)⟩
